import Mathlib

/-!
Verification development for the bundle generator (atari-vcs/bundle-gen).

The Rust sources are shallowly embedded: on-disk paths become lists of
path components (`Path := List String`), archive names stay `String`s,
filesystem and external-library behaviour (ELF parsing, the two ld.so
caches, `fs::canonicalize`, the shell tokenizer, file metadata) is
abstracted into explicit environment records of pure functions, and the
worklist loop of the dependency resolver is run on explicit fuel (the
Rust loop always terminates because the build cache is finite; every
theorem below is conditioned on the loop returning a value, and the
concrete witnesses compute one).
-/

deriving instance DecidableEq for Except

namespace BundleGen

/-! ## String component machinery

Rust `Path` operations (`file_name`, `parent`, `ancestors`, `join`) and
the `split('.')` used for soname aliases are modelled through explicit
character-list splitting, so that every lemma about them is provable
without appeal to `String.splitOn` internals.  Archive names are
forward-slash separated strings exactly as in the source.
-/

/-- Splits a character list at every occurrence of the separator `c`.
The result is always non-empty and its elements never contain `c`. -/
def splitChar (c : Char) : List Char → List (List Char)
  | [] => [[]]
  | a :: rest =>
    if a = c then [] :: splitChar c rest
    else
      match splitChar c rest with
      | [] => [[a]]
      | h :: t => (a :: h) :: t

/-- Joins character lists with the separator `c`, inverse of `splitChar`. -/
def joinChar (c : Char) : List (List Char) → List Char
  | [] => []
  | [x] => x
  | x :: rest => x ++ c :: joinChar c rest

/-- Components of an archive name, split at forward slashes. -/
def comps (n : String) : List (List Char) := splitChar '/' n.data

/-- Joins components back into an archive name. -/
def joinComps (cs : List (List Char)) : String := ⟨joinChar '/' cs⟩

/-- Rust `Path::file_name().to_os_string()` on an archive-name string:
the last normal component, where empty and `.` components are skipped
and a trailing `..` yields none. -/
def pathFileName (n : String) : Option String :=
  match (comps n).filter (fun c => c ≠ [] ∧ c ≠ ['.']) |>.getLast? with
  | some s => if s = ['.', '.'] then none else some ⟨s⟩
  | none => none

/-- Rust `Path::new(name).parent().map(|p| p.join(dep))` with the
no-parent case falling back to `dep` itself (used when recording soname
aliases next to a seed's archive name). -/
def nameParentJoin (n : String) (dep : String) : String :=
  match (comps n).dropLast with
  | [] => dep
  | ps => ⟨joinChar '/' ps ++ '/' :: dep.data⟩

/-- Rust `Path::new("lib").join(d).to_string_lossy()`: joining with an
absolute path replaces the base, otherwise a slash is interposed. -/
def libJoin (d : String) : String :=
  if d.data.head? = some '/' then d else "lib/" ++ d

/-- Dot-separated prefixes of a file name, in the order the alias scan
probes them: for `libfoo.so.1` this is `[libfoo, libfoo.so, libfoo.so.1]`. -/
def dotPrefixes (file : String) : List String :=
  let cs := splitChar '.' file.data
  (List.range' 1 cs.length).map (fun i => ⟨joinChar '.' (cs.take i)⟩)

/-- Lexicographic strict order on character lists; this is the order of
Rust's `Ord` for `String` restricted to the names the generator builds. -/
def lexLt : List Char → List Char → Bool
  | [], [] => false
  | [], _ :: _ => true
  | _ :: _, [] => false
  | a :: as, b :: bs => if a < b then true else if b < a then false else lexLt as bs

/-- Strict order on archive names used by the B-tree map model. -/
def strLt (s t : String) : Prop := lexLt s.data t.data = true

instance (s t : String) : Decidable (strLt s t) := by
  unfold strLt; infer_instance

/-! ## Data model -/

/-- On-disk locations, as the list of path components of an absolute
path (the empty list is the filesystem root). -/
abbrev FsPath := List String

/-- An item waiting to be written to a bundle: `location` is the on-disk
path, `name` the destination path inside the archive (lib.rs). -/
structure FileEntry where
  location : FsPath
  name : String
deriving DecidableEq, Repr

/-- Errors of the dependency resolver (ldcache.rs `LdError`), with the
fatal IO / ELF-parse / cache cases collapsed into one message-carrying
constructor; `notElf` is the tolerated case and never escapes the loop. -/
inductive LdErr where
  | fatal (msg : String)
  | missingDependency (soname : String)
deriving DecidableEq, Repr

/-- Outcome of parsing one worklist file for its `DT_NEEDED` list
(ldcache.rs `find_elf_deps`): the needed sonames, the tolerated
not-an-ELF case, or a fatal read/parse error. -/
inductive ElfOutcome where
  | elfDeps (deps : List String)
  | notElf
  | fatal (msg : String)
deriving DecidableEq, Repr

/-- Environment of the dependency resolver: the baseline cache
membership test, the build cache as a finite soname-to-path table, the
per-file ELF parse outcome, and `fs::canonicalize`. -/
structure LdEnv where
  baseContains : String → Bool
  buildCache : List (String × FsPath)
  elf : FsPath → ElfOutcome
  canonicalize : FsPath → Option FsPath

/-- First-match lookup in an association list (models both
`BTreeMap::get` and the ld.so.cache path lookup). -/
def alFind {V : Type} (m : List (String × V)) (k : String) : Option V :=
  (m.find? (fun p => p.1 = k)).map (fun p => p.2)

/-- Insert-or-replace in an association list (models `BTreeMap::insert`
where only subsequent lookups matter, not iteration order). -/
def alInsert {V : Type} : List (String × V) → String → V → List (String × V)
  | [], k, v => [(k, v)]
  | (k', v') :: t, k, v =>
    if k' = k then (k, v) :: t else (k', v') :: alInsert t k v

/-- Needed sonames of a worklist file, empty in the tolerated and fatal
cases (used only to state reachability, not in the executable loop). -/
def elfDepsOf (env : LdEnv) (p : FsPath) : List String :=
  match env.elf p with
  | .elfDeps ds => ds
  | _ => []

/-! ## ELF dependency resolver (ldcache.rs) -/

/-- State built by the seed-preparation loop of `resolve_deps`. -/
structure SeedState where
  work : List FsPath
  queued : List FsPath
  ownLibs : List String
  ownExtra : List (String × FileEntry)
deriving Repr

/-- Model of `find_additional_versions`: for every dot-prefix of the
seed's on-disk file name, if the sibling path canonicalizes back to the
seed's location, record an alias `FileEntry` under that prefix whose
archive name sits next to the seed's archive name. -/
def findAdditionalVersions (env : LdEnv) (elf : FileEntry)
    (m : List (String × FileEntry)) : List (String × FileEntry) :=
  match elf.location.getLast? with
  | none => m
  | some file =>
    let parent := elf.location.dropLast
    (dotPrefixes file).foldl
      (fun acc dep =>
        if env.canonicalize (parent ++ [dep]) = some elf.location then
          alInsert acc dep ⟨elf.location, nameParentJoin elf.name dep⟩
        else acc)
      m

/-- One seed of the seed-preparation loop: skip seeds whose location is
already queued, otherwise record the archive basename as an own library,
scan for sibling aliases, and queue the location. -/
def seedStep (env : LdEnv) (st : SeedState) (elf : FileEntry) : SeedState :=
  if elf.location ∈ st.queued then st
  else
    { work := elf.location :: st.work
      queued := elf.location :: st.queued
      ownLibs :=
        match pathFileName elf.name with
        | some f => f :: st.ownLibs
        | none => st.ownLibs
      ownExtra := findAdditionalVersions env elf st.ownExtra }

/-- The whole seed-preparation loop of `resolve_deps`. -/
def seedPhase (env : LdEnv) (elves : List FileEntry) : SeedState :=
  elves.foldl (seedStep env) ⟨[], [], [], []⟩

/-- Mutable state of the traversal loop (`own_extra_libs` is fixed after
seeding and passed separately). -/
structure TravState where
  work : List FsPath
  queued : List FsPath
  ownLibs : List String
  res : List FileEntry
deriving DecidableEq, Repr

/-- Processing of a single needed soname `d` inside the traversal loop:
skip if the baseline cache has it or we already ship it; emit a recorded
sibling alias; otherwise consult the build cache, queueing new paths and
failing with `missingDependency` on a miss. -/
def processDep (env : LdEnv) (extra : List (String × FileEntry))
    (st : TravState) (d : String) : Except LdErr TravState :=
  if env.baseContains d = true ∨ d ∈ st.ownLibs then .ok st
  else
    match alFind extra d with
    | some entry =>
      .ok { st with res := st.res ++ [entry], ownLibs := d :: st.ownLibs }
    | none =>
      match alFind env.buildCache d with
      | some p =>
        if p ∈ st.queued then .ok st
        else
          .ok { work := p :: st.work
                queued := p :: st.queued
                ownLibs := st.ownLibs
                res := st.res ++ [⟨p, libJoin d⟩] }
      | none => .error (.missingDependency d)

/-- The traversal loop of `resolve_deps`, on fuel: pop a path, parse it,
fold `processDep` over its needed sonames; not-ELF files are tolerated,
other parse failures are fatal.  `none` means the fuel ran out. -/
def runLoop (env : LdEnv) (extra : List (String × FileEntry)) :
    Nat → TravState → Option (Except LdErr TravState)
  | 0, _ => none
  | fuel + 1, st =>
    match st.work with
    | [] => some (.ok st)
    | p :: rest =>
      match env.elf p with
      | .elfDeps deps =>
        match deps.foldlM (processDep env extra) { st with work := rest } with
        | .ok st'' => runLoop env extra fuel st''
        | .error e => some (.error e)
      | .notElf => runLoop env extra fuel { st with work := rest }
      | .fatal msg => some (.error (.fatal msg))

/-- Fuel that always suffices: one unit per possible worklist push. -/
def loopFuel (env : LdEnv) (elves : List FileEntry) : Nat :=
  elves.length + env.buildCache.length + 1

/-- Full result of `resolve_deps`, keeping the final traversal state. -/
def resolveDepsFull (env : LdEnv) (elves : List FileEntry) :
    Option (Except LdErr TravState) :=
  let sp := seedPhase env elves
  runLoop env sp.ownExtra (loopFuel env elves)
    ⟨sp.work, sp.queued, sp.ownLibs, []⟩

/-- Model of `resolve_deps`: the ordered list of additional `FileEntry`
values to ship, or the first fatal error. -/
def resolveDeps (env : LdEnv) (elves : List FileEntry) :
    Option (Except LdErr (List FileEntry)) :=
  (resolveDepsFull env elves).map (Except.map TravState.res)

/-- Model of the file-collection and archive-composition slice of
`build_phase` (generate.rs): the ELF seed list is executables, then
extra ELF files, then libraries; the archive insertion set is
executables, libraries, resources, then the resolved dependencies (the
extra ELF files are scanned but never inserted). -/
def buildPhaseInsert (env : LdEnv)
    (execs libs ress extras : List FileEntry) :
    Option (Except LdErr (List FileEntry)) :=
  (resolveDeps env (execs ++ extras ++ libs)).map
    (Except.map (fun deps => execs ++ libs ++ ress ++ deps))

/-- Resolution of a soname to the on-disk file the traversal would scan
for it: a recorded sibling alias resolves to the aliased seed's
location, anything else goes through the build cache. -/
def followPath (env : LdEnv) (extra : List (String × FileEntry))
    (d : String) : Option FsPath :=
  match alFind extra d with
  | some e => some e.location
  | none => alFind env.buildCache d

/-- Sonames reachable from a seed location by transitively following
`DT_NEEDED` entries, where a soname not provided by the baseline cache
is followed into the file `followPath` resolves it to. -/
inductive Reach (env : LdEnv) (extra : List (String × FileEntry)) :
    FsPath → String → Prop
  | head {p : FsPath} {d : String} :
      d ∈ elfDepsOf env p → Reach env extra p d
  | step {p : FsPath} {d d' : String} {q : FsPath} :
      Reach env extra p d → env.baseContains d = false →
      followPath env extra d = some q → d' ∈ elfDepsOf env q →
      Reach env extra p d'

/-! ## Archive writer (generate.rs `insert_files`)

The zip writer is modelled as the sequence of entries it receives.
Metadata reads are an oracle from locations to file modes; a `none`
models a filesystem error while reading the entry's metadata.
-/

/-- One effect on the zip writer during `insert_files`. -/
inductive ZEntry where
  | dir (name : String)
  | file (name : String) (location : FsPath) (mode : Nat)
deriving DecidableEq, Repr

/-- Errors of the archive-composition slice of generate.rs that the
claims mention (`BuildError`), with fatal IO collapsed to a message. -/
inductive ZErr where
  | duplicateZipFileEntry (name : String)
  | ioErr (msg : String)
deriving DecidableEq, Repr

/-- Ordered insert-or-replace keyed by archive name, returning the
previous binding: models `BTreeMap::insert` including its iteration
order (strictly ascending in the Rust `String` order). -/
def mapInsert : List (String × FsPath) → String → FsPath →
    Option FsPath × List (String × FsPath)
  | [], k, v => (none, [(k, v)])
  | (k', v') :: t, k, v =>
    if k = k' then (some v', (k, v) :: t)
    else if strLt k k' then (none, (k, v) :: (k', v') :: t)
    else
      let r := mapInsert t k v
      (r.1, (k', v') :: r.2)

/-- The deduplication loop of `insert_files`: build the archive-name to
location map, failing on a name that reappears with a different
location; a reappearance with an identical location is collapsed. -/
def buildEntryMap : List (String × FsPath) → List FileEntry →
    Except ZErr (List (String × FsPath))
  | m, [] => .ok m
  | m, f :: rest =>
    match (mapInsert m f.name f.location).1 with
    | some old =>
      if old ≠ f.location then .error (.duplicateZipFileEntry f.name)
      else buildEntryMap (mapInsert m f.name f.location).2 rest
    | none => buildEntryMap (mapInsert m f.name f.location).2 rest

/-- Ancestor chain of an archive name as Rust builds it: reversed
`Path::ancestors` with the file itself popped, so index `0` is the empty
root and index `i` is the path of the first `i` components. -/
def ancChain (n : String) : List String :=
  (List.range (comps n).length).map (fun i => joinComps ((comps n).take i))

/-- Directory entries emitted before one file, given the previous
file's ancestor chain: indices start at `1` to skip the root, and an
ancestor is emitted when the previous chain differs at that index. -/
def stepDirs (old nw : List String) : List String :=
  (List.range' 1 (nw.length - 1)).filterMap
    (fun i =>
      match nw.get? i with
      | some d => if old.get? i = some d then none else some d
      | none => none)

/-- The ancestor-chain context carried between emission steps: empty
before the first file, the previous file's ancestor chain afterwards. -/
def oldChain : Option String → List String
  | none => []
  | some p => ancChain p

/-- The emission loop of `insert_files` over the sorted entry map,
threading the previous file name and recording every writer effect; a
metadata failure aborts with the trace written so far. -/
def emitEntries (meta : FsPath → Option Nat) :
    List (String × FsPath) → Option String → List ZEntry × Option ZErr
  | [], _ => ([], none)
  | (name, loc) :: rest, lastPath =>
    match meta loc with
    | none =>
      ((stepDirs (oldChain lastPath) (ancChain name)).map ZEntry.dir,
        some (.ioErr name))
    | some mode =>
      ((stepDirs (oldChain lastPath) (ancChain name)).map ZEntry.dir ++
        ZEntry.file name loc mode :: (emitEntries meta rest (some name)).1,
        (emitEntries meta rest (some name)).2)

/-- Model of `insert_files`: the full writer trace plus the error, if
any.  The duplicate check runs to completion before any emission. -/
def insertFilesTrace (meta : FsPath → Option Nat) (files : List FileEntry) :
    List ZEntry × Option ZErr :=
  match buildEntryMap [] files with
  | .error e => ([], some e)
  | .ok m => emitEntries meta m none

/-- Model of `insert_files` as a fallible function. -/
def insertFiles (meta : FsPath → Option Nat) (files : List FileEntry) :
    Except ZErr (List ZEntry) :=
  match insertFilesTrace meta files with
  | (tr, none) => .ok tr
  | (_, some e) => .error e

/-! ## Bundle specification (config.rs) -/

/-- Bundle kinds (the `Type` field of the YAML specification). -/
inductive BundleType where
  | game
  | application
  | launcherOnly
deriving DecidableEq, Repr

/-- The user-visible bundle specification, without the embedded build
section (the build section feeds `build_phase`, modelled separately). -/
structure BundleSpec where
  name : String
  bundleType : BundleType
  storeId : Option String
  homebrewId : Option String
  exec : Option String
  background : Option Bool
  preferXboxMode : Option Bool
  launcher : Option String
  launcherTags : Option (List String)
  launcherExec : Option String
  runnerPatch : Option String
deriving DecidableEq, Repr

/-- Validation errors of config.rs (`BundleSpecError`), without the
IO/YAML cases that precede validation. -/
inductive BundleSpecError where
  | conflictingOrigins
  | noLauncherTags
  | noLauncherExec (ctx : String)
  | noExec (ctx : String)
  | uselessExec
  | noHomebrewLaunchers
  | noHomebrewBackgroundBundles
  | noOriginId
deriving DecidableEq, Repr

/-- Final launcher-coherence check of `check_store_bundle`: a launcher
executable requires a non-empty tag list. -/
def checkStoreLauncherPair (spec : BundleSpec) : Except BundleSpecError Unit :=
  if spec.launcherExec.isSome then
    match spec.launcherTags with
    | some v => if v.isEmpty then .error .noLauncherTags else .ok ()
    | none => .error .noLauncherTags
  else .ok ()

/-- Bundle-type check of `check_store_bundle`, followed by the final
launcher-coherence check. -/
def checkStoreKind (spec : BundleSpec) : Except BundleSpecError Unit :=
  match spec.bundleType with
  | .launcherOnly =>
    if spec.launcherExec.isNone then .error (.noLauncherExec "bundle type")
    else if spec.exec.isSome then .error .uselessExec
    else checkStoreLauncherPair spec
  | _ =>
    if spec.exec.isNone then .error (.noExec "bundle type")
    else checkStoreLauncherPair spec

/-- Model of `BundleSpec::check_store_bundle`. -/
def checkStoreBundle (spec : BundleSpec) : Except BundleSpecError Unit :=
  if spec.homebrewId.isSome then .error .conflictingOrigins
  else if (spec.launcherTags.getD []).isEmpty then
    if spec.launcherExec.isSome then .error .noLauncherTags
    else checkStoreKind spec
  else
    if spec.launcherExec.isNone then .error (.noLauncherExec "launcher tags")
    else checkStoreKind spec

/-- Model of `BundleSpec::check_homebrew_bundle`. -/
def checkHomebrewBundle (spec : BundleSpec) : Except BundleSpecError Unit :=
  if ¬ (spec.launcherTags.getD []).isEmpty ∨ spec.launcherExec.isSome then
    .error .noHomebrewLaunchers
  else
    match spec.bundleType with
    | .launcherOnly => .error .noHomebrewLaunchers
    | _ =>
      if spec.exec.isNone then .error (.noExec "bundle type")
      else if spec.background.getD false then .error .noHomebrewBackgroundBundles
      else .ok ()

/-- Model of `BundleSpec::check`: store bundles are validated by the
store rules, otherwise homebrew bundles by the homebrew rules, and a
specification with neither origin is rejected. -/
def BundleSpec.check (spec : BundleSpec) : Except BundleSpecError Unit :=
  if spec.storeId.isSome then checkStoreBundle spec
  else if spec.homebrewId.isSome then checkHomebrewBundle spec
  else .error .noOriginId

/-! ## Launcher synthesis and manifest composition (generate.rs) -/

/-- Errors of `make_bundle` and its helpers that the claims mention. -/
inductive BErr where
  | badCommand (cmd : String)
  | invalidField (field : String)
  | missingField (field : String)
  | bundleOriginUnknown
  | bundleSpec (e : BundleSpecError)
  | ioErr (msg : String)
deriving DecidableEq, Repr

/-- Effects on the archive writer during manifest composition. -/
inductive BundleAction where
  | scriptFile (name : String) (mode : Nat) (text : String)
  | manifestFile
  | runnerPatchFile (location : FsPath)
deriving DecidableEq, Repr

/-- The fixed head of the launcher script template, up to the point the
command is spliced in; it appends `$\x7bP\x7d/lib` to the end of the
existing `LD_LIBRARY_PATH`. -/
def scriptHead : String :=
  "#!/bin/sh\n\nset -x\n\nP=$(dirname \"$(busybox realpath \"$0\")\")\n\n" ++
  "export LD_LIBRARY_PATH=\"$\x7bLD_LIBRARY_PATH\x7d:$\x7bP\x7d/lib\"\n\n" ++
  "\"$\x7bP\x7d/"

/-- The launcher script text emitted by `make_launcher_sh`, with the
command and already-quoted fixed arguments spliced into the template
(the trailing blank line comes from `writeln!`). -/
def launcherScript (cmd : String) (args : List String) : String :=
  scriptHead ++ cmd ++ "\" " ++ String.intercalate " " args ++ " \"$@\"\n\n"

/-- Command and fixed-argument selection of `make_launcher_sh`: on a
successful tokenization the first token is the command and the rest are
emitted single-quoted, an empty token list is `BadCommand`, and a
tokenizer failure falls back to the whole string as the command. -/
def splitCommand (split : String → Option (List String)) (cmd : String) :
    Except BErr (String × List String) :=
  match split cmd with
  | some [] => .error (.badCommand cmd)
  | some (c :: rest) => .ok (c, rest.map (fun s => "\x27" ++ s ++ "\x27"))
  | none => .ok (cmd, [])

/-- Model of `make_launcher_sh`: a `0o755` script entry whose text is
the launcher template around the tokenized command. -/
def makeLauncherSh (split : String → Option (List String))
    (name : String) (cmd : String) : Except BErr BundleAction :=
  (splitCommand split cmd).map
    (fun r => .scriptFile name 0o755 (launcherScript r.1 r.2))

/-- The manifest (`BundleConfig`) as composed by `make_bundle`; only
fields the builder sets are kept. -/
structure Manifest where
  name : String
  bundleType : BundleType
  homebrewId : Option String
  storeId : Option String
  exec : Option String
  preferXboxMode : Option Bool
  version : Option String
  requiresLauncher : Option String
  background : Option Bool
  providesLauncher : Option (String × List String)
deriving DecidableEq, Repr

/-- The effective-program stage of `make_bundle`: with an external
launcher the exec string is recorded as-is, otherwise a `run.sh` wrapper
is synthesized and recorded instead. -/
def progStage (split : String → Option (List String)) (cfg : BundleSpec) :
    Except BErr (Option String × List BundleAction) :=
  match cfg.exec with
  | some e =>
    if cfg.launcher.isSome then .ok (some e, [])
    else
      match makeLauncherSh split "run.sh" e with
      | .ok a => .ok (some "run.sh", [a])
      | .error er => .error er
  | none => .ok (none, [])

/-- The manifest fields every origin branch of `make_bundle` sets. -/
def baseManifest (cfg : BundleSpec) (version : String)
    (prog : Option String) : Manifest :=
  { name := cfg.name, bundleType := cfg.bundleType
    homebrewId := none, storeId := none
    exec := prog, preferXboxMode := cfg.preferXboxMode
    version := some version, requiresLauncher := cfg.launcher
    background := none, providesLauncher := none }

/-- The origin branch of `make_bundle`: the homebrew branch enforces the
late field restrictions, the store branch wires the provided launcher,
and a specification with neither origin is rejected. -/
def originStage (split : String → Option (List String)) (cfg : BundleSpec)
    (base : Manifest) (acts : List BundleAction) :
    Except BErr (Manifest × List BundleAction) :=
  match cfg.homebrewId with
  | some hid =>
    if cfg.launcherTags.isSome then .error (.invalidField "LauncherTags")
    else if cfg.launcherExec.isSome then .error (.invalidField "LauncherExec")
    else if cfg.background.isSome then .error (.invalidField "Background")
    else .ok ({ base with homebrewId := some hid }, acts ++ [.manifestFile])
  | none =>
    match cfg.storeId with
    | some sid =>
      match cfg.launcherExec with
      | some le =>
        match cfg.launcherTags with
        | some tags =>
          match makeLauncherSh split "launch.sh" le with
          | .ok a =>
            .ok ({ base with
                    storeId := some sid
                    background := cfg.background
                    providesLauncher := some ("launch.sh", tags) },
              acts ++ [a, .manifestFile])
          | .error er => .error er
        | none => .error (.missingField "LauncherTags")
      | none =>
        if cfg.launcherTags.isSome then .error (.missingField "LauncherExec")
        else .ok ({ base with storeId := some sid, background := cfg.background },
          acts ++ [.manifestFile])
    | none => .error .bundleOriginUnknown

/-- The runner-patch stage of `make_bundle`. -/
def patchStage (canonPatch : String → Option FsPath) (cfg : BundleSpec)
    (ma : Manifest × List BundleAction) :
    Except BErr (Manifest × List BundleAction) :=
  match cfg.runnerPatch with
  | some patch =>
    match canonPatch patch with
    | some loc => .ok (ma.1, ma.2 ++ [.runnerPatchFile loc])
    | none => .error (.ioErr patch)
  | none => .ok ma

/-- Model of `make_bundle` after a successful build phase: compute the
effective program (synthesizing `run.sh` when `exec` is present and no
external launcher is named), then compose the manifest for exactly one
origin, enforcing the late homebrew field restrictions, and finally
insert the runner patch if declared. -/
def makeBundle (split : String → Option (List String))
    (canonPatch : String → Option FsPath) (cfg : BundleSpec)
    (version : String) : Except BErr (Manifest × List BundleAction) :=
  match progStage split cfg with
  | .error er => .error er
  | .ok pa =>
    match originStage split cfg (baseManifest cfg version pa.1) pa.2 with
    | .error er => .error er
    | .ok ma => patchStage canonPatch cfg ma

/-- The validation-then-composition slice of `generate`: `BundleSpec::check`
runs first, then `make_bundle` (here with the build phase already done
and its version string in hand). -/
def generateChecked (split : String → Option (List String))
    (canonPatch : String → Option FsPath) (cfg : BundleSpec)
    (version : String) : Except BErr (Manifest × List BundleAction) :=
  match cfg.check with
  | .error e => .error (.bundleSpec e)
  | .ok _ => makeBundle split canonPatch cfg version

/-! ## General helper lemmas -/

theorem foldlMExceptError {σ α ε : Type} {f : σ → α → Except ε σ} :
    ∀ {l : List α} {s : σ} {e : ε}, l.foldlM f s = .error e →
      ∃ a ∈ l, ∃ s', f s' a = .error e := by
  intro l
  induction l with
  | nil => intro s e h; simp [List.foldlM, pure, Except.pure] at h
  | cons a t ih =>
    intro s e h
    rw [List.foldlM_cons] at h
    cases hfa : f s a with
    | error e' =>
      rw [hfa] at h
      simp only [Bind.bind, Except.bind] at h
      cases h
      exact ⟨a, List.mem_cons_self a t, s, hfa⟩
    | ok s₁ =>
      rw [hfa] at h
      simp only [Bind.bind, Except.bind] at h
      obtain ⟨a', ha', s', hs'⟩ := ih h
      exact ⟨a', List.mem_cons_of_mem a ha', s', hs'⟩

theorem foldlMExceptOkInd {σ α ε : Type} {f : σ → α → Except ε σ}
    (P : σ → Prop) (hstep : ∀ s a s', P s → f s a = .ok s' → P s') :
    ∀ {l : List α} {s s' : σ}, l.foldlM f s = .ok s' → P s → P s' := by
  intro l
  induction l with
  | nil =>
    intro s s' h hp
    simp only [List.foldlM, pure, Except.pure, Except.ok.injEq] at h
    cases h; exact hp
  | cons a t ih =>
    intro s s' h hp
    rw [List.foldlM_cons] at h
    cases hfa : f s a with
    | error e' =>
      rw [hfa] at h
      simp only [Bind.bind, Except.bind] at h
      exact Except.noConfusion h
    | ok s₁ =>
      rw [hfa] at h
      simp only [Bind.bind, Except.bind] at h
      exact ih h (hstep s a s₁ hp hfa)

/-! ## Dependency-resolver lemmas -/

/-- Characterization of the only error `processDep` can raise: the
needed soname is in neither cache, not an own library, and not a
recorded alias. -/
theorem processDep_error_iff (env : LdEnv) (extra : List (String × FileEntry))
    (st : TravState) (d : String) (e : LdErr) :
    processDep env extra st d = .error e ↔
      (e = .missingDependency d ∧ env.baseContains d = false ∧
        d ∉ st.ownLibs ∧ alFind extra d = none ∧
        alFind env.buildCache d = none) := by
  constructor
  · intro h
    unfold processDep at h
    split at h
    · exact Except.noConfusion h
    · rename_i hb
      push_neg at hb
      split at h
      · exact Except.noConfusion h
      · rename_i hx
        split at h
        · split at h
          · exact Except.noConfusion h
          · exact Except.noConfusion h
        · rename_i hc
          cases h
          refine ⟨rfl, ?_, hb.2, hx, hc⟩
          cases hbb : env.baseContains d
          · rfl
          · exact absurd hbb hb.1
  · rintro ⟨he, hbase, hown, hx, hc⟩
    cases he
    unfold processDep
    simp [hbase, hown, hx, hc]

/-- A `missingDependency` failure of the traversal loop pins down a
soname missing from the baseline cache, the alias table, and the build
cache. -/
theorem runLoop_error_missing (env : LdEnv) (extra : List (String × FileEntry)) :
    ∀ (fuel : Nat) (st : TravState) (d : String),
      runLoop env extra fuel st = some (.error (.missingDependency d)) →
        env.baseContains d = false ∧ alFind extra d = none ∧
          alFind env.buildCache d = none := by
  intro fuel
  induction fuel with
  | zero => intro st d h; simp [runLoop] at h
  | succ n ih =>
    intro st d h
    rw [runLoop] at h
    split at h
    · simp at h
    · split at h
      · split at h
        · exact ih _ d h
        · rename_i e hfold
          simp only [Option.some_inj] at h
          cases h
          obtain ⟨d', -, st', hpd⟩ := foldlMExceptError hfold
          rw [processDep_error_iff] at hpd
          obtain ⟨he, h1, -, h3, h4⟩ := hpd
          cases he
          exact ⟨h1, h3, h4⟩
      · exact ih _ d h
      · simp at h

/-! ## Claim C3: missing-dependency failure condition -/

/-- Claim C3: `resolve_deps` fails with `MissingDependency d` exactly
when the traversal meets a needed soname `d` that the baseline cache
does not contain, that is not an own (already shipped) soname, not a
recorded sibling alias, and that the build cache lookup misses; the
error names that soname.  Stated as the exact characterization of the
per-soname step's failure, plus the global fact that a
`missingDependency` outcome of the whole resolver pins down a soname
missing from the baseline cache, the alias table and the build cache. -/
theorem c3_missing_dependency_iff :
    (∀ (env : LdEnv) (extra : List (String × FileEntry)) (st : TravState)
        (d : String) (e : LdErr),
      processDep env extra st d = .error e ↔
        (e = .missingDependency d ∧ env.baseContains d = false ∧
          d ∉ st.ownLibs ∧ alFind extra d = none ∧
          alFind env.buildCache d = none)) ∧
    (∀ (env : LdEnv) (elves : List FileEntry) (d : String),
      resolveDeps env elves = some (.error (.missingDependency d)) →
        env.baseContains d = false ∧
          alFind (seedPhase env elves).ownExtra d = none ∧
          alFind env.buildCache d = none) := by
  constructor
  · exact processDep_error_iff
  · intro env elves d h
    unfold resolveDeps at h
    cases hr : resolveDepsFull env elves with
    | none => rw [hr] at h; exact Option.noConfusion h
    | some r =>
      rw [hr] at h
      cases r with
      | ok st => simp [Except.map] at h
      | error e =>
        simp [Except.map] at h
        subst h
        exact runLoop_error_missing env _ _ _ d hr

/-- Witness environment for the missing-dependency claim: one seed
executable whose single needed soname is nowhere to be found. -/
def envMissing : LdEnv :=
  { baseContains := fun _ => false
    buildCache := [("liby.so", ["u", "liby.so"])]
    elf := fun p => if p = ["w", "app"] then .elfDeps ["libz.so"] else .elfDeps []
    canonicalize := fun _ => none }

/-- Witness for C3 at a concrete run that fails on `libz.so`. -/
theorem c3_missing_dependency_iff_witness :
    resolveDeps envMissing [⟨["w", "app"], "bin/app"⟩] =
      some (.error (.missingDependency "libz.so")) ∧
    (envMissing.baseContains "libz.so" = false ∧
      alFind (seedPhase envMissing [⟨["w", "app"], "bin/app"⟩]).ownExtra
        "libz.so" = none ∧
      alFind envMissing.buildCache "libz.so" = none) :=
  ⟨by decide,
    c3_missing_dependency_iff.2 envMissing [⟨["w", "app"], "bin/app"⟩]
      "libz.so" (by decide)⟩

/-! ## Claim C7: shell tokenization contract of the launcher -/

/-- Claim C7: `make_launcher_sh` tokenizes the exec string with the
shell-word tokenizer (here an oracle `split`); it fails, with
`BadCommand` naming the exec string, exactly when tokenization succeeds
with an empty token list; a tokenizer failure uses the exec string
verbatim as the command with no extra arguments; and a command followed
by arguments is emitted with each fixed argument single-quoted. -/
theorem c7_tokenization_contract :
    (∀ (split : String → Option (List String)) (name cmd : String),
      (∃ e, makeLauncherSh split name cmd = .error e) ↔
        split cmd = some []) ∧
    (∀ (split : String → Option (List String)) (name cmd : String),
      split cmd = some [] →
        makeLauncherSh split name cmd = .error (.badCommand cmd)) ∧
    (∀ (split : String → Option (List String)) (name cmd : String),
      split cmd = none →
        makeLauncherSh split name cmd =
          .ok (.scriptFile name 0o755 (launcherScript cmd []))) ∧
    (∀ (split : String → Option (List String)) (name cmd : String)
        (c : String) (args : List String),
      split cmd = some (c :: args) →
        makeLauncherSh split name cmd =
          .ok (.scriptFile name 0o755
            (launcherScript c
              (args.map (fun s => "\x27" ++ s ++ "\x27"))))) := by
  refine ⟨?_, ?_, ?_, ?_⟩
  · intro split name cmd
    constructor
    · rintro ⟨e, he⟩
      unfold makeLauncherSh splitCommand at he
      cases hsp : split cmd with
      | none => rw [hsp] at he; exact Except.noConfusion he
      | some parts =>
        cases parts with
        | nil => rfl
        | cons c rest => rw [hsp] at he; exact Except.noConfusion he
    · intro hsp
      exact ⟨.badCommand cmd,
        by unfold makeLauncherSh splitCommand; rw [hsp]; rfl⟩
  · intro split name cmd hsp
    unfold makeLauncherSh splitCommand
    rw [hsp]
    rfl
  · intro split name cmd hsp
    unfold makeLauncherSh splitCommand
    rw [hsp]
    rfl
  · intro split name cmd c args hsp
    unfold makeLauncherSh splitCommand
    rw [hsp]
    rfl

/-- Witness for C7 at three concrete tokenizer behaviours. -/
theorem c7_tokenization_contract_witness :
    makeLauncherSh (fun _ => some []) "run.sh" "cmd" =
      .error (.badCommand "cmd") ∧
    makeLauncherSh (fun _ => none) "run.sh" "od dd" =
      .ok (.scriptFile "run.sh" 0o755 (launcherScript "od dd" [])) ∧
    makeLauncherSh (fun _ => some ["od", "dd"]) "run.sh" "od dd" =
      .ok (.scriptFile "run.sh" 0o755
        (launcherScript "od"
          (["dd"].map (fun s => "\x27" ++ s ++ "\x27")))) :=
  ⟨c7_tokenization_contract.2.1 _ "run.sh" "cmd" rfl,
    c7_tokenization_contract.2.2.1 _ "run.sh" "od dd" rfl,
    c7_tokenization_contract.2.2.2 _ "run.sh" "od dd" "od" ["dd"] rfl⟩

/-! ## Claim C10: duplicate-entry failure writes nothing -/

theorem emitEntries_err_ioErr (meta : FsPath → Option Nat) :
    ∀ (m : List (String × FsPath)) (last : Option String) (e : ZErr),
      (emitEntries meta m last).2 = some e → ∃ msg, e = .ioErr msg := by
  intro m
  induction m with
  | nil => intro last e h; simp [emitEntries] at h
  | cons kv rest ih =>
    intro last e h
    obtain ⟨name, loc⟩ := kv
    unfold emitEntries at h
    cases hm : meta loc with
    | none =>
      rw [hm] at h
      simp only at h
      cases h
      exact ⟨name, rfl⟩
    | some mode =>
      rw [hm] at h
      simp only at h
      exact ih (some name) e h

/-- Claim C10: `insert_files` is atomic on the duplicate-entry error:
when it reports `DuplicateZipFileEntry`, the writer trace is empty,
because the whole name-to-location map is built and checked before any
directory or file entry is emitted. -/
theorem c10_duplicate_error_atomic :
    ∀ (meta : FsPath → Option Nat) (files : List FileEntry) (n : String),
      (insertFilesTrace meta files).2 = some (.duplicateZipFileEntry n) →
        (insertFilesTrace meta files).1 = [] := by
  intro meta files n h
  unfold insertFilesTrace at h ⊢
  cases hb : buildEntryMap [] files with
  | error e => rfl
  | ok m =>
    rw [hb] at h
    obtain ⟨msg, hmsg⟩ := emitEntries_err_ioErr meta m none _ h
    exact ZErr.noConfusion hmsg

/-- Witness for C10: two entries sharing a name with different
locations make the trace empty. -/
theorem c10_duplicate_error_atomic_witness :
    (insertFilesTrace (fun _ => some 420)
        [⟨["x"], "res/a"⟩, ⟨["y"], "res/a"⟩]).2 =
      some (.duplicateZipFileEntry "res/a") ∧
    (insertFilesTrace (fun _ => some 420)
        [⟨["x"], "res/a"⟩, ⟨["y"], "res/a"⟩]).1 = [] :=
  ⟨by decide,
    c10_duplicate_error_atomic (fun _ => some 420)
      [⟨["x"], "res/a"⟩, ⟨["y"], "res/a"⟩] "res/a" (by decide)⟩

/-! ## Order lemmas for archive names -/

theorem lexLt_irrefl : ∀ l : List Char, lexLt l l = false := by
  intro l
  induction l with
  | nil => rfl
  | cons a t ih => simp [lexLt, ih]

theorem lexLt_trans : ∀ {a b c : List Char},
    lexLt a b = true → lexLt b c = true → lexLt a c = true := by
  intro a
  induction a with
  | nil =>
    intro b c hab hbc
    cases b with
    | nil => cases hab
    | cons x xs =>
      cases c with
      | nil => cases hbc
      | cons y ys => rfl
  | cons x xs ih =>
    intro b c hab hbc
    cases b with
    | nil => cases hab
    | cons y ys =>
      cases c with
      | nil => cases hbc
      | cons z zs =>
        simp only [lexLt] at hab hbc ⊢
        rcases lt_trichotomy x y with hxy | hxy | hxy
        · rcases lt_trichotomy y z with hyz | hyz | hyz
          · simp [lt_trans hxy hyz]
          · subst hyz; simp [hxy]
          · rw [if_pos hxy] at hab
            rw [if_neg (asymm hyz), if_pos hyz] at hbc
            cases hbc
        · subst hxy
          rw [if_neg (lt_irrefl x), if_neg (lt_irrefl x)] at hab
          rcases lt_trichotomy x z with hxz | hxz | hxz
          · simp [hxz]
          · subst hxz
            simp only [lt_irrefl, if_false]
            rw [if_neg (lt_irrefl x), if_neg (lt_irrefl x)] at hbc
            exact ih hab hbc
          · rw [if_neg (asymm hxz), if_pos hxz] at hbc
            cases hbc
        · rw [if_neg (asymm hxy), if_pos hxy] at hab
          cases hab

theorem lexLt_connex : ∀ a b : List Char,
    a = b ∨ lexLt a b = true ∨ lexLt b a = true := by
  intro a
  induction a with
  | nil =>
    intro b
    cases b with
    | nil => exact Or.inl rfl
    | cons y ys => exact Or.inr (Or.inl rfl)
  | cons x xs ih =>
    intro b
    cases b with
    | nil => exact Or.inr (Or.inr rfl)
    | cons y ys =>
      rcases lt_trichotomy x y with hxy | hxy | hxy
      · refine Or.inr (Or.inl ?_)
        simp [lexLt, hxy]
      · subst hxy
        rcases ih ys with h | h | h
        · exact Or.inl (by rw [h])
        · refine Or.inr (Or.inl ?_)
          simp [lexLt, lt_irrefl, h]
        · refine Or.inr (Or.inr ?_)
          simp [lexLt, lt_irrefl, h]
      · refine Or.inr (Or.inr ?_)
        simp [lexLt, hxy]

theorem lexLt_asymm {a b : List Char} (h : lexLt a b = true) :
    lexLt b a = false := by
  cases hb : lexLt b a
  · rfl
  · have := lexLt_trans h hb
    rw [lexLt_irrefl] at this
    cases this

theorem strLt_trans {a b c : String} (h1 : strLt a b) (h2 : strLt b c) :
    strLt a c := lexLt_trans h1 h2

theorem strLt_connex (a b : String) : a = b ∨ strLt a b ∨ strLt b a := by
  rcases lexLt_connex a.data b.data with h | h | h
  · exact Or.inl (String.ext h)
  · exact Or.inr (Or.inl h)
  · exact Or.inr (Or.inr h)

theorem strLt_irrefl (a : String) : ¬ strLt a a := by
  unfold strLt
  rw [lexLt_irrefl]
  simp

theorem strLt_asymm {a b : String} (h : strLt a b) : ¬ strLt b a := by
  unfold strLt
  rw [lexLt_asymm h]
  simp

/-! ## Association-list and entry-map lemmas -/

theorem alFind_nil {V : Type} (k : String) : alFind ([] : List (String × V)) k = none := rfl

theorem alFind_cons {V : Type} (a : String) (b : V) (t : List (String × V))
    (k : String) :
    alFind ((a, b) :: t) k = if a = k then some b else alFind t k := by
  by_cases h : a = k <;> simp [alFind, List.find?, h]

theorem alFind_none {V : Type} :
    ∀ (m : List (String × V)) (k : String),
      (∀ kv ∈ m, kv.1 ≠ k) → alFind m k = none := by
  intro m
  induction m with
  | nil => intro k _; rfl
  | cons hd t ih =>
    intro k h
    obtain ⟨a, b⟩ := hd
    rw [alFind_cons]
    rw [if_neg (h (a, b) (List.mem_cons_self _ _))]
    exact ih k (fun kv hkv => h kv (List.mem_cons_of_mem _ hkv))

theorem mapInsert_fst (m : List (String × FsPath)) (k : String) (v : FsPath)
    (hs : List.Pairwise (fun a b => strLt a.1 b.1) m) :
    (mapInsert m k v).1 = alFind m k := by
  induction m with
  | nil => rfl
  | cons kv t ih =>
    obtain ⟨k', v'⟩ := kv
    rw [List.pairwise_cons] at hs
    obtain ⟨hhd, ht⟩ := hs
    rw [alFind_cons]
    unfold mapInsert
    by_cases h : k = k'
    · subst h; simp
    · have h' : ¬ (k' = k) := fun hh => h hh.symm
      rw [if_neg h, if_neg h']
      split
      · rename_i hlt
        refine (alFind_none t k ?_).symm
        intro kv hkv he
        exact absurd (strLt_trans hlt (he ▸ hhd kv hkv)) (strLt_irrefl k)
      · exact ih ht

theorem mapInsert_find (m : List (String × FsPath)) (k : String) (v : FsPath)
    (x : String) :
    alFind (mapInsert m k v).2 x = if k = x then some v else alFind m x := by
  induction m with
  | nil =>
    unfold mapInsert
    rw [alFind_cons, alFind_nil]
  | cons kv t ih =>
    obtain ⟨k', v'⟩ := kv
    unfold mapInsert
    by_cases h : k = k'
    · subst h
      rw [if_pos rfl]
      simp only
      rw [alFind_cons, alFind_cons]
      by_cases hx : k = x
      · rw [if_pos hx, if_pos hx]
      · rw [if_neg hx, if_neg hx, if_neg hx]
    · rw [if_neg h]
      split
      · simp only
        rw [alFind_cons, alFind_cons]
      · simp only
        rw [alFind_cons, alFind_cons]
        by_cases hx : k' = x
        · have hkx : ¬ (k = x) := fun hh => h (hh.trans hx.symm)
          rw [if_pos hx, if_pos hx, if_neg hkx]
        · rw [if_neg hx, if_neg hx]
          exact ih

theorem mapInsert_mem (m : List (String × FsPath)) (k : String) (v : FsPath) :
    ∀ kv ∈ (mapInsert m k v).2, kv = (k, v) ∨ kv ∈ m := by
  induction m with
  | nil =>
    intro kv h
    unfold mapInsert at h
    simp at h
    exact Or.inl h
  | cons hd t ih =>
    obtain ⟨k', v'⟩ := hd
    intro kv h
    unfold mapInsert at h
    split at h
    · rcases List.mem_cons.mp h with h | h
      · exact Or.inl h
      · exact Or.inr (List.mem_cons_of_mem _ h)
    · split at h
      · rcases List.mem_cons.mp h with h | h
        · exact Or.inl h
        · exact Or.inr h
      · rcases List.mem_cons.mp h with h | h
        · exact Or.inr (h ▸ List.mem_cons_self _ _)
        · rcases ih kv h with h | h
          · exact Or.inl h
          · exact Or.inr (List.mem_cons_of_mem _ h)

theorem mapInsert_pairwise (m : List (String × FsPath)) (k : String)
    (v : FsPath) (h : List.Pairwise (fun a b => strLt a.1 b.1) m) :
    List.Pairwise (fun a b => strLt a.1 b.1) (mapInsert m k v).2 := by
  induction m with
  | nil => simp [mapInsert]
  | cons hd t ih =>
    obtain ⟨k', v'⟩ := hd
    rw [List.pairwise_cons] at h
    obtain ⟨hhd, ht⟩ := h
    unfold mapInsert
    by_cases he : k = k'
    · subst he
      simp only [if_pos rfl]
      exact List.pairwise_cons.mpr ⟨hhd, ht⟩
    · simp only [he, if_false]
      split
      · rename_i hlt
        refine List.pairwise_cons.mpr ⟨?_, List.pairwise_cons.mpr ⟨hhd, ht⟩⟩
        intro x hx
        rcases List.mem_cons.mp hx with hx | hx
        · rw [hx]; exact hlt
        · exact strLt_trans hlt (hhd x hx)
      · rename_i hnlt
        have hk'k : strLt k' k := by
          rcases strLt_connex k k' with h | h | h
          · exact absurd h he
          · exact absurd h hnlt
          · exact h
        refine List.pairwise_cons.mpr ⟨?_, ih ht⟩
        intro x hx
        rcases mapInsert_mem t k v x hx with hx | hx
        · rw [hx]; exact hk'k
        · exact hhd x hx

/-! ## Deduplication-map lemmas (generate.rs `insert_files`, first loop) -/

theorem bem_err_form :
    ∀ (files : List FileEntry) (m₀ : List (String × FsPath)) (e : ZErr),
      buildEntryMap m₀ files = .error e →
        ∃ n, e = .duplicateZipFileEntry n := by
  intro files
  induction files with
  | nil => intro m₀ e h; exact Except.noConfusion h
  | cons f rest ih =>
    intro m₀ e h
    unfold buildEntryMap at h
    split at h
    · split at h
      · cases h; exact ⟨f.name, rfl⟩
      · exact ih _ e h
    · exact ih _ e h

theorem bem_sorted :
    ∀ (files : List FileEntry) (m₀ : List (String × FsPath))
      (m : List (String × FsPath)),
      List.Pairwise (fun a b => strLt a.1 b.1) m₀ →
      buildEntryMap m₀ files = .ok m →
        List.Pairwise (fun a b => strLt a.1 b.1) m := by
  intro files
  induction files with
  | nil =>
    intro m₀ m h0 h
    cases h
    exact h0
  | cons f rest ih =>
    intro m₀ m h0 h
    unfold buildEntryMap at h
    split at h
    · split at h
      · exact Except.noConfusion h
      · exact ih _ m (mapInsert_pairwise m₀ f.name f.location h0) h
    · exact ih _ m (mapInsert_pairwise m₀ f.name f.location h0) h

theorem bem_ok_compat :
    ∀ (files : List FileEntry) (m₀ : List (String × FsPath))
      (m : List (String × FsPath)),
      List.Pairwise (fun a b => strLt a.1 b.1) m₀ →
      buildEntryMap m₀ files = .ok m →
        (∀ f ∈ files, ∀ loc, alFind m₀ f.name = some loc → loc = f.location) ∧
        (∀ f1 ∈ files, ∀ f2 ∈ files, f1.name = f2.name →
          f1.location = f2.location) := by
  intro files
  induction files with
  | nil =>
    intro m₀ m _ _
    exact ⟨fun f hf => absurd hf (List.not_mem_nil f),
      fun f hf => absurd hf (List.not_mem_nil f)⟩
  | cons f rest ih =>
    intro m₀ m hs h
    unfold buildEntryMap at h
    split at h
    · rename_i old heq
      rw [mapInsert_fst m₀ f.name f.location hs] at heq
      split at h
      · exact Except.noConfusion h
      · rename_i hne
        push_neg at hne
        obtain ⟨arest, crest⟩ :=
          ih _ m (mapInsert_pairwise m₀ f.name f.location hs) h
        constructor
        · intro g hg loc hloc
          rcases List.mem_cons.mp hg with hg | hg
          · subst hg
            rw [heq] at hloc
            rw [← Option.some.inj hloc]
            exact hne
          · by_cases hname : f.name = g.name
            · have h1 : alFind (mapInsert m₀ f.name f.location).2 g.name =
                  some f.location := by
                rw [mapInsert_find, if_pos hname]
              have h2 := arest g hg f.location h1
              rw [← hname, heq] at hloc
              rw [← Option.some.inj hloc, hne]
              exact h2
            · refine arest g hg loc ?_
              rw [mapInsert_find, if_neg hname]
              exact hloc
        · intro f1 hm1 f2 hm2 hnm
          rcases List.mem_cons.mp hm1 with h1 | h1
          · rcases List.mem_cons.mp hm2 with h2 | h2
            · subst h1; subst h2; rfl
            · subst h1
              refine arest f2 h2 f1.location ?_
              rw [mapInsert_find, if_pos hnm]
          · rcases List.mem_cons.mp hm2 with h2 | h2
            · subst h2
              refine (arest f1 h1 f2.location ?_).symm
              rw [mapInsert_find, if_pos hnm.symm]
            · exact crest f1 h1 f2 h2 hnm
    · rename_i heq
      rw [mapInsert_fst m₀ f.name f.location hs] at heq
      obtain ⟨arest, crest⟩ :=
        ih _ m (mapInsert_pairwise m₀ f.name f.location hs) h
      constructor
      · intro g hg loc hloc
        rcases List.mem_cons.mp hg with hg | hg
        · subst hg
          rw [heq] at hloc
          exact Option.noConfusion hloc
        · by_cases hname : f.name = g.name
          · rw [← hname, heq] at hloc
            exact Option.noConfusion hloc
          · refine arest g hg loc ?_
            rw [mapInsert_find, if_neg hname]
            exact hloc
      · intro f1 hm1 f2 hm2 hnm
        rcases List.mem_cons.mp hm1 with h1 | h1
        · rcases List.mem_cons.mp hm2 with h2 | h2
          · subst h1; subst h2; rfl
          · subst h1
            refine arest f2 h2 f1.location ?_
            rw [mapInsert_find, if_pos hnm]
        · rcases List.mem_cons.mp hm2 with h2 | h2
          · subst h2
            refine (arest f1 h1 f2.location ?_).symm
            rw [mapInsert_find, if_pos hnm.symm]
          · exact crest f1 h1 f2 h2 hnm

theorem bem_err_sound :
    ∀ (files : List FileEntry) (m₀ : List (String × FsPath))
      (R : String → FsPath → Prop) (n : String),
      List.Pairwise (fun a b => strLt a.1 b.1) m₀ →
      (∀ k loc, alFind m₀ k = some loc → R k loc) →
      buildEntryMap m₀ files = .error (.duplicateZipFileEntry n) →
      ∃ f2 ∈ files, f2.name = n ∧ ∃ loc, loc ≠ f2.location ∧
        (R n loc ∨ ∃ f1 ∈ files, f1.name = n ∧ f1.location = loc) := by
  intro files
  induction files with
  | nil => intro m₀ R n _ _ h; exact Except.noConfusion h
  | cons f rest ih =>
    intro m₀ R n hs hR h
    unfold buildEntryMap at h
    split at h
    · rename_i old heq
      rw [mapInsert_fst m₀ f.name f.location hs] at heq
      split at h
      · rename_i hne
        cases h
        refine ⟨f, List.mem_cons_self _ _, rfl, old, ?_, ?_⟩
        · exact fun hc => hne (hc ▸ rfl)
        · exact Or.inl (hR f.name old heq)
      · rename_i hne
        push_neg at hne
        have hR' : ∀ k loc,
            alFind (mapInsert m₀ f.name f.location).2 k = some loc →
              R k loc ∨ (k = f.name ∧ loc = f.location) := by
          intro k loc hk
          rw [mapInsert_find] at hk
          by_cases hc : f.name = k
          · rw [if_pos hc] at hk
            exact Or.inr ⟨hc.symm, (Option.some.inj hk).symm⟩
          · rw [if_neg hc] at hk
            exact Or.inl (hR k loc hk)
        obtain ⟨f2, hf2, hf2n, loc, hloc, hdisj⟩ :=
          ih _ _ n (mapInsert_pairwise m₀ f.name f.location hs) hR' h
        refine ⟨f2, List.mem_cons_of_mem _ hf2, hf2n, loc, hloc, ?_⟩
        rcases hdisj with (hd | hd) | ⟨g, hg, hgn, hgl⟩
        · exact Or.inl hd
        · exact Or.inr ⟨f, List.mem_cons_self _ _, hd.1.symm, hd.2.symm⟩
        · exact Or.inr ⟨g, List.mem_cons_of_mem _ hg, hgn, hgl⟩
    · rename_i heq
      rw [mapInsert_fst m₀ f.name f.location hs] at heq
      have hR' : ∀ k loc,
          alFind (mapInsert m₀ f.name f.location).2 k = some loc →
            R k loc ∨ (k = f.name ∧ loc = f.location) := by
        intro k loc hk
        rw [mapInsert_find] at hk
        by_cases hc : f.name = k
        · rw [if_pos hc] at hk
          exact Or.inr ⟨hc.symm, (Option.some.inj hk).symm⟩
        · rw [if_neg hc] at hk
          exact Or.inl (hR k loc hk)
      obtain ⟨f2, hf2, hf2n, loc, hloc, hdisj⟩ :=
        ih _ _ n (mapInsert_pairwise m₀ f.name f.location hs) hR' h
      refine ⟨f2, List.mem_cons_of_mem _ hf2, hf2n, loc, hloc, ?_⟩
      rcases hdisj with (hd | hd) | ⟨g, hg, hgn, hgl⟩
      · exact Or.inl hd
      · exact Or.inr ⟨f, List.mem_cons_self _ _, hd.1.symm, hd.2.symm⟩
      · exact Or.inr ⟨g, List.mem_cons_of_mem _ hg, hgn, hgl⟩

theorem bem_ok_preserved :
    ∀ (files : List FileEntry) (m₀ m : List (String × FsPath)),
      buildEntryMap m₀ files = .ok m →
      ∀ (k : String) (loc : FsPath), alFind m₀ k = some loc →
        (∀ g ∈ files, g.name ≠ k) → alFind m k = some loc := by
  intro files
  induction files with
  | nil =>
    intro m₀ m h k loc hk _
    cases h
    exact hk
  | cons f rest ih =>
    intro m₀ m h k loc hk hunt
    unfold buildEntryMap at h
    split at h
    · split at h
      · exact Except.noConfusion h
      · refine ih _ m h k loc ?_
          (fun g hg => hunt g (List.mem_cons_of_mem _ hg))
        rw [mapInsert_find,
          if_neg (hunt f (List.mem_cons_self _ _))]
        exact hk
    · refine ih _ m h k loc ?_
        (fun g hg => hunt g (List.mem_cons_of_mem _ hg))
      rw [mapInsert_find,
        if_neg (hunt f (List.mem_cons_self _ _))]
      exact hk

theorem bem_ok_find :
    ∀ (files : List FileEntry) (m₀ m : List (String × FsPath)),
      List.Pairwise (fun a b => strLt a.1 b.1) m₀ →
      buildEntryMap m₀ files = .ok m →
      ∀ f ∈ files, alFind m f.name = some f.location := by
  intro files
  induction files with
  | nil => intro m₀ m _ _ f hf; exact absurd hf (List.not_mem_nil f)
  | cons f rest ih =>
    intro m₀ m hs h f' hf'
    have horig := h
    unfold buildEntryMap at h
    have main : ∀ (hrest : buildEntryMap (mapInsert m₀ f.name f.location).2
        rest = .ok m), alFind m f'.name = some f'.location := by
      intro hrest
      rcases List.mem_cons.mp hf' with hf' | hf'
      · subst hf'
        by_cases hex : ∃ g ∈ rest, g.name = f'.name
        · obtain ⟨g, hg, hgname⟩ := hex
          have hfind := ih _ m
            (mapInsert_pairwise m₀ f'.name f'.location hs) hrest g hg
          have hcompat :=
            (bem_ok_compat (f' :: rest) m₀ m hs horig).2 f'
              (List.mem_cons_self _ _) g (List.mem_cons_of_mem _ hg)
              hgname.symm
          rw [← hgname, hfind, hcompat]
        · push_neg at hex
          refine bem_ok_preserved rest _ m hrest f'.name f'.location ?_ hex
          rw [mapInsert_find, if_pos rfl]
      · exact ih _ m (mapInsert_pairwise m₀ f.name f.location hs) hrest f' hf'
    split at h
    · split at h
      · exact Except.noConfusion h
      · exact main h
    · exact main h

theorem bem_ok_entries :
    ∀ (files : List FileEntry) (m₀ m : List (String × FsPath)),
      buildEntryMap m₀ files = .ok m →
      ∀ kv ∈ m, kv ∈ m₀ ∨ ∃ f ∈ files, f.name = kv.1 ∧ f.location = kv.2 := by
  intro files
  induction files with
  | nil =>
    intro m₀ m h kv hkv
    cases h
    exact Or.inl hkv
  | cons f rest ih =>
    intro m₀ m h kv hkv
    have main : ∀ (hrest : buildEntryMap (mapInsert m₀ f.name f.location).2
        rest = .ok m),
        kv ∈ m₀ ∨ ∃ g ∈ f :: rest, g.name = kv.1 ∧ g.location = kv.2 := by
      intro hrest
      rcases ih _ m hrest kv hkv with hin | ⟨g, hg, hgn, hgl⟩
      · rcases mapInsert_mem m₀ f.name f.location kv hin with hkv' | hkv'
        · exact Or.inr ⟨f, List.mem_cons_self _ _, by rw [hkv'], by rw [hkv']⟩
        · exact Or.inl hkv'
      · exact Or.inr ⟨g, List.mem_cons_of_mem _ hg, hgn, hgl⟩
    unfold buildEntryMap at h
    split at h
    · split at h
      · exact Except.noConfusion h
      · exact main h
    · exact main h

/-! ## Claim C4: duplicate-entry detection of `insert_files` -/

/-- Claim C4: the deduplication loop of `insert_files` fails with the
duplicate-entry error exactly when two input entries share an archive
name but have different on-disk locations; the error names such a
conflicting archive name; and on success the entries are collapsed into
a strictly name-sorted map binding every input name to its unique
location, with every binding coming from some input entry. -/
theorem c4_duplicate_entry_iff :
    ∀ files : List FileEntry,
      ((∃ e, buildEntryMap [] files = .error e) ↔
        ∃ f1 ∈ files, ∃ f2 ∈ files, f1.name = f2.name ∧
          f1.location ≠ f2.location) ∧
      (∀ n, buildEntryMap [] files = .error (.duplicateZipFileEntry n) →
        ∃ f1 ∈ files, ∃ f2 ∈ files, f1.name = n ∧ f2.name = n ∧
          f1.location ≠ f2.location) ∧
      (∀ m, buildEntryMap [] files = .ok m →
        List.Pairwise (fun a b => strLt a.1 b.1) m ∧
        (∀ f ∈ files, alFind m f.name = some f.location) ∧
        (∀ kv ∈ m, ∃ f ∈ files, f.name = kv.1 ∧ f.location = kv.2)) := by
  intro files
  have part2 : ∀ n, buildEntryMap [] files = .error (.duplicateZipFileEntry n) →
      ∃ f1 ∈ files, ∃ f2 ∈ files, f1.name = n ∧ f2.name = n ∧
        f1.location ≠ f2.location := by
    intro n h
    obtain ⟨f2, hf2, hf2n, loc, hloc, hdisj⟩ :=
      bem_err_sound files [] (fun _ _ => False) n (List.Pairwise.nil)
        (fun k loc hk => Option.noConfusion hk) h
    rcases hdisj with hd | ⟨f1, hf1, hf1n, hf1l⟩
    · exact absurd hd not_false
    · exact ⟨f1, hf1, f2, hf2, hf1n, hf2n, by rw [hf1l]; exact hloc⟩
  refine ⟨⟨?_, ?_⟩, part2, ?_⟩
  · rintro ⟨e, he⟩
    obtain ⟨n, hn⟩ := bem_err_form files [] e he
    subst hn
    obtain ⟨f1, hf1, f2, hf2, hn1, hn2, hl⟩ := part2 n he
    exact ⟨f1, hf1, f2, hf2, hn1.trans hn2.symm, hl⟩
  · rintro ⟨f1, hf1, f2, hf2, hn, hl⟩
    cases hb : buildEntryMap [] files with
    | error e => exact ⟨e, rfl⟩
    | ok m =>
      have := (bem_ok_compat files [] m List.Pairwise.nil hb).2 f1 hf1 f2 hf2 hn
      exact absurd this hl
  · intro m h
    refine ⟨bem_sorted files [] m List.Pairwise.nil h,
      bem_ok_find files [] m List.Pairwise.nil h, ?_⟩
    intro kv hkv
    rcases bem_ok_entries files [] m h kv hkv with hin | hin
    · exact absurd hin (List.not_mem_nil kv)
    · exact hin

/-- Witness for C4: a conflicting pair is reported, and an
equal-location repetition is collapsed into a sorted map. -/
theorem c4_duplicate_entry_iff_witness :
    (∃ f1 ∈ ([⟨["x"], "lib/a"⟩, ⟨["y"], "lib/a"⟩] : List FileEntry),
      ∃ f2 ∈ ([⟨["x"], "lib/a"⟩, ⟨["y"], "lib/a"⟩] : List FileEntry),
        f1.name = "lib/a" ∧ f2.name = "lib/a" ∧
          f1.location ≠ f2.location) ∧
    (List.Pairwise (fun a b => strLt a.1 b.1)
        [("lib/a", (["y"] : FsPath)), ("lib/b", ["x"])] ∧
      (∀ f ∈ ([⟨["x"], "lib/b"⟩, ⟨["x"], "lib/b"⟩, ⟨["y"], "lib/a"⟩] :
          List FileEntry),
        alFind [("lib/a", (["y"] : FsPath)), ("lib/b", ["x"])] f.name =
          some f.location) ∧
      (∀ kv ∈ [("lib/a", (["y"] : FsPath)), ("lib/b", ["x"])],
        ∃ f ∈ ([⟨["x"], "lib/b"⟩, ⟨["x"], "lib/b"⟩, ⟨["y"], "lib/a"⟩] :
            List FileEntry),
          f.name = kv.1 ∧ f.location = kv.2)) :=
  ⟨(c4_duplicate_entry_iff [⟨["x"], "lib/a"⟩, ⟨["y"], "lib/a"⟩]).2.1
      "lib/a" (by decide),
    (c4_duplicate_entry_iff
        [⟨["x"], "lib/b"⟩, ⟨["x"], "lib/b"⟩, ⟨["y"], "lib/a"⟩]).2.2
      [("lib/a", ["y"]), ("lib/b", ["x"])] (by decide)⟩

/-! ## Manifest-composition lemmas (generate.rs `make_bundle`) -/

theorem progStage_ok (split : String → Option (List String))
    (cfg : BundleSpec)
    (hcmd : ∀ e, cfg.exec = some e → split e ≠ some []) :
    ∃ pa, progStage split cfg = .ok pa := by
  unfold progStage
  cases he : cfg.exec with
  | none => exact ⟨(none, []), rfl⟩
  | some e =>
    dsimp only
    by_cases hl : cfg.launcher.isSome
    · rw [if_pos hl]
      exact ⟨(some e, []), rfl⟩
    · rw [if_neg hl]
      unfold makeLauncherSh splitCommand
      cases hs : split e with
      | none => exact ⟨_, rfl⟩
      | some parts =>
        cases parts with
        | nil => exact absurd hs (hcmd e he)
        | cons c r => exact ⟨_, rfl⟩

theorem originStage_homebrew_background (split : String → Option (List String))
    (cfg : BundleSpec) (base : Manifest) (acts : List BundleAction)
    (hid : String) (hh : cfg.homebrewId = some hid)
    (ht : cfg.launcherTags = none) (hle : cfg.launcherExec = none)
    (hbg : cfg.background.isSome) :
    originStage split cfg base acts = .error (.invalidField "Background") := by
  unfold originStage
  rw [hh]
  dsimp only
  rw [ht, hle]
  simp [hbg]

theorem originStage_homebrew_err (split : String → Option (List String))
    (cfg : BundleSpec) (base : Manifest) (acts : List BundleAction)
    (hid : String) (hh : cfg.homebrewId = some hid)
    (hany : cfg.launcherTags.isSome ∨ cfg.launcherExec.isSome ∨
      cfg.background.isSome) :
    ∃ e, originStage split cfg base acts = .error e := by
  unfold originStage
  rw [hh]
  dsimp only
  by_cases h1 : cfg.launcherTags.isSome
  · exact ⟨_, by rw [if_pos h1]⟩
  · rw [if_neg h1]
    by_cases h2 : cfg.launcherExec.isSome
    · exact ⟨_, by rw [if_pos h2]⟩
    · rw [if_neg h2]
      have h3 : cfg.background.isSome := by
        rcases hany with h | h | h
        · exact absurd h h1
        · exact absurd h h2
        · exact h
      exact ⟨_, by rw [if_pos h3]⟩

theorem checkHomebrew_ok_of (cfg : BundleSpec)
    (ht : (cfg.launcherTags.getD []).isEmpty = true)
    (hle : cfg.launcherExec = none)
    (hbt : cfg.bundleType ≠ .launcherOnly)
    (hex : cfg.exec.isSome)
    (hbg : cfg.background.getD false = false) :
    checkHomebrewBundle cfg = .ok () := by
  unfold checkHomebrewBundle
  rw [if_neg]
  · cases hb : cfg.bundleType with
    | launcherOnly => exact absurd hb hbt
    | game =>
      simp only
      rw [if_neg, if_neg]
      · rw [hbg]; simp
      · simp [Option.isNone_iff_eq_none]
        exact Option.isSome_iff_exists.mp hex |>.choose_spec ▸ (by simp)
    | application =>
      simp only
      rw [if_neg, if_neg]
      · rw [hbg]; simp
      · simp [Option.isNone_iff_eq_none]
        exact Option.isSome_iff_exists.mp hex |>.choose_spec ▸ (by simp)
  · rw [ht, hle]
    simp

/-! ## Claim C9: Background=false passes validation, fails composition -/

/-- Claim C9: a homebrew specification with `Background` present and
false passes `BundleSpec::check` (the early check tests the boolean
value), yet `make_bundle` rejects it with `InvalidField("Background")`
because the late check tests only presence; hence `generate` fails for
every homebrew specification that sets `Background` at all. -/
theorem c9_background_false_rejected :
    (∀ (split : String → Option (List String))
        (canonPatch : String → Option FsPath) (cfg : BundleSpec)
        (version : String) (hid : String),
      cfg.storeId = none → cfg.homebrewId = some hid →
      cfg.background = some false →
      cfg.launcherTags = none → cfg.launcherExec = none →
      cfg.bundleType ≠ .launcherOnly → cfg.exec.isSome →
      (∀ e, cfg.exec = some e → split e ≠ some []) →
      BundleSpec.check cfg = .ok () ∧
        generateChecked split canonPatch cfg version =
          .error (.invalidField "Background")) ∧
    (∀ (split : String → Option (List String))
        (canonPatch : String → Option FsPath) (cfg : BundleSpec)
        (version : String) (hid : String),
      cfg.storeId = none → cfg.homebrewId = some hid →
      cfg.background.isSome →
      ∃ e, generateChecked split canonPatch cfg version = .error e) := by
  constructor
  · intro split canonPatch cfg version hid hst hhb hbg ht hle hbt hex hcmd
    have hchk : BundleSpec.check cfg = .ok () := by
      have h2 := checkHomebrew_ok_of cfg (by rw [ht]; rfl) hle hbt hex
        (by rw [hbg]; rfl)
      simp [BundleSpec.check, hst, hhb, h2]
    refine ⟨hchk, ?_⟩
    obtain ⟨pa, hpa⟩ := progStage_ok split cfg hcmd
    have horg := originStage_homebrew_background split cfg
      (baseManifest cfg version pa.1) pa.2 hid hhb ht hle (by rw [hbg]; rfl)
    simp [generateChecked, makeBundle, hchk, hpa, horg]
  · intro split canonPatch cfg version hid hst hhb hbg
    cases hchk : BundleSpec.check cfg with
    | error e =>
      exact ⟨.bundleSpec e, by unfold generateChecked; rw [hchk]⟩
    | ok u =>
      cases u
      cases hps : progStage split cfg with
      | error er =>
        exact ⟨er, by simp [generateChecked, makeBundle, hchk, hps]⟩
      | ok pa =>
        obtain ⟨e0, he0⟩ :=
          originStage_homebrew_err split cfg
            (baseManifest cfg version pa.1) pa.2 hid hhb
            (Or.inr (Or.inr hbg))
        exact ⟨e0, by simp [generateChecked, makeBundle, hchk, hps, he0]⟩

/-- Witness configuration for the homebrew `Background=false` claim. -/
def cfgBgFalse : BundleSpec :=
  { name := "demo", bundleType := .game, storeId := none
    homebrewId := some "hb1", exec := some "bin/demo"
    background := some false, preferXboxMode := none, launcher := none
    launcherTags := none, launcherExec := none, runnerPatch := none }

/-- Witness for C9 at a concrete homebrew specification. -/
theorem c9_background_false_rejected_witness :
    (BundleSpec.check cfgBgFalse = .ok () ∧
      generateChecked (fun _ => some ["bin/demo"]) (fun _ => none)
        cfgBgFalse "0.1" = .error (.invalidField "Background")) ∧
    (∃ e, generateChecked (fun _ => some ["bin/demo"]) (fun _ => none)
      cfgBgFalse "0.1" = .error e) :=
  ⟨c9_background_false_rejected.1 _ _ cfgBgFalse "0.1" "hb1" rfl rfl rfl rfl
      rfl (by decide) (by decide) (fun e he => by cases he; decide),
    c9_background_false_rejected.2 _ _ cfgBgFalse "0.1" "hb1" rfl rfl
      (by decide)⟩

/-! ## Claim C8: homebrew restrictions -/

theorem checkHomebrew_launcher_err (cfg : BundleSpec)
    (h : ¬ (cfg.launcherTags.getD []).isEmpty ∨ cfg.launcherExec.isSome) :
    checkHomebrewBundle cfg = .error .noHomebrewLaunchers := by
  unfold checkHomebrewBundle
  rw [if_pos h]

theorem checkHomebrew_bg_err (cfg : BundleSpec)
    (ht : (cfg.launcherTags.getD []).isEmpty = true)
    (hle : cfg.launcherExec = none)
    (hbt : cfg.bundleType ≠ .launcherOnly)
    (hex : cfg.exec.isSome)
    (hbg : cfg.background.getD false = true) :
    checkHomebrewBundle cfg = .error .noHomebrewBackgroundBundles := by
  unfold checkHomebrewBundle
  rw [if_neg]
  · cases hb : cfg.bundleType with
    | launcherOnly => exact absurd hb hbt
    | game =>
      dsimp only
      rw [if_neg, if_pos hbg]
      simp [Option.isNone_iff_eq_none]
      exact Option.isSome_iff_exists.mp hex |>.choose_spec ▸ (by simp)
    | application =>
      dsimp only
      rw [if_neg, if_pos hbg]
      simp [Option.isNone_iff_eq_none]
      exact Option.isSome_iff_exists.mp hex |>.choose_spec ▸ (by simp)
  · rw [ht, hle]
    simp

theorem check_store_conflict (cfg : BundleSpec)
    (hst : cfg.storeId.isSome) (hhb : cfg.homebrewId.isSome) :
    BundleSpec.check cfg = .error .conflictingOrigins := by
  unfold BundleSpec.check checkStoreBundle
  simp [hst, hhb]

theorem originStage_homebrew_tags (split : String → Option (List String))
    (cfg : BundleSpec) (base : Manifest) (acts : List BundleAction)
    (hid : String) (hh : cfg.homebrewId = some hid)
    (ht : cfg.launcherTags.isSome) :
    originStage split cfg base acts = .error (.invalidField "LauncherTags") := by
  unfold originStage
  rw [hh]
  dsimp only
  rw [if_pos ht]

/-- Counterexample configuration for C8: homebrew with `Background=true`. -/
def cfgC8 : BundleSpec :=
  { name := "demo", bundleType := .game, storeId := none
    homebrewId := some "hb1", exec := some "bin/demo"
    background := some true, preferXboxMode := none, launcher := none
    launcherTags := none, launcherExec := none, runnerPatch := none }

/-- Counterexample for C8: a homebrew specification with
`Background=true` is rejected, but by the early validation with
`NoHomebrewBackgroundBundles`, which is not an `InvalidField` error. -/
theorem c8_invalidfield_counterexample :
    generateChecked (fun _ => some ["bin/demo"]) (fun _ => none) cfgC8
        "0.1" = .error (.bundleSpec .noHomebrewBackgroundBundles) ∧
    ∀ f : String,
      (BErr.bundleSpec .noHomebrewBackgroundBundles) ≠ .invalidField f :=
  ⟨by decide, fun f h => BErr.noConfusion h⟩

/-- Claim C8, amended: every homebrew specification carrying
`LauncherTags`, `LauncherExec` or `Background=true` is rejected by
`generate`, but the error is `InvalidField` only when the specification
survives the early validation (which happens for `LauncherTags` present
but empty); non-empty `LauncherTags` or a present `LauncherExec` are
rejected earlier with `NoHomebrewLaunchers`, and `Background=true` is
rejected earlier with `NoHomebrewBackgroundBundles`. -/
theorem c8_homebrew_rejection_amended :
    (∀ (split : String → Option (List String))
        (canonPatch : String → Option FsPath) (cfg : BundleSpec)
        (version : String) (hid : String),
      cfg.homebrewId = some hid →
      (cfg.launcherTags.isSome ∨ cfg.launcherExec.isSome ∨
        cfg.background = some true) →
      ∃ e, generateChecked split canonPatch cfg version = .error e) ∧
    (∀ (split : String → Option (List String))
        (canonPatch : String → Option FsPath) (cfg : BundleSpec)
        (version : String) (hid : String),
      cfg.storeId = none → cfg.homebrewId = some hid →
      (¬ (cfg.launcherTags.getD []).isEmpty ∨ cfg.launcherExec.isSome) →
      generateChecked split canonPatch cfg version =
        .error (.bundleSpec .noHomebrewLaunchers)) ∧
    (∀ (split : String → Option (List String))
        (canonPatch : String → Option FsPath) (cfg : BundleSpec)
        (version : String) (hid : String),
      cfg.storeId = none → cfg.homebrewId = some hid →
      (cfg.launcherTags.getD []).isEmpty = true → cfg.launcherExec = none →
      cfg.bundleType ≠ .launcherOnly → cfg.exec.isSome →
      cfg.background = some true →
      generateChecked split canonPatch cfg version =
        .error (.bundleSpec .noHomebrewBackgroundBundles)) ∧
    (∀ (split : String → Option (List String))
        (canonPatch : String → Option FsPath) (cfg : BundleSpec)
        (version : String) (hid : String),
      cfg.storeId = none → cfg.homebrewId = some hid →
      cfg.launcherTags = some [] → cfg.launcherExec = none →
      cfg.bundleType ≠ .launcherOnly → cfg.exec.isSome →
      cfg.background.getD false = false →
      (∀ e, cfg.exec = some e → split e ≠ some []) →
      generateChecked split canonPatch cfg version =
        .error (.invalidField "LauncherTags")) := by
  refine ⟨?_, ?_, ?_, ?_⟩
  · intro split canonPatch cfg version hid hhb hany
    cases hst : cfg.storeId with
    | some sid =>
      have hc := check_store_conflict cfg (by rw [hst]; rfl) (by rw [hhb]; rfl)
      exact ⟨.bundleSpec .conflictingOrigins,
        by simp [generateChecked, hc]⟩
    | none =>
      cases hchk : BundleSpec.check cfg with
      | error e =>
        exact ⟨.bundleSpec e, by simp [generateChecked, hchk]⟩
      | ok u =>
        cases u
        cases hps : progStage split cfg with
        | error er =>
          exact ⟨er, by simp [generateChecked, makeBundle, hchk, hps]⟩
        | ok pa =>
          have hany' : cfg.launcherTags.isSome ∨ cfg.launcherExec.isSome ∨
              cfg.background.isSome := by
            rcases hany with h | h | h
            · exact Or.inl h
            · exact Or.inr (Or.inl h)
            · exact Or.inr (Or.inr (by rw [h]; rfl))
          obtain ⟨e0, he0⟩ :=
            originStage_homebrew_err split cfg
              (baseManifest cfg version pa.1) pa.2 hid hhb hany'
          exact ⟨e0, by simp [generateChecked, makeBundle, hchk, hps, he0]⟩
  · intro split canonPatch cfg version hid hst hhb hl
    have hc := checkHomebrew_launcher_err cfg hl
    simp [generateChecked, BundleSpec.check, hst, hhb, hc]
  · intro split canonPatch cfg version hid hst hhb ht hle hbt hex hbg
    have hc := checkHomebrew_bg_err cfg ht hle hbt hex (by rw [hbg]; rfl)
    simp [generateChecked, BundleSpec.check, hst, hhb, hc]
  · intro split canonPatch cfg version hid hst hhb ht hle hbt hex hbg hcmd
    have hchk : BundleSpec.check cfg = .ok () := by
      have h2 := checkHomebrew_ok_of cfg (by rw [ht]; rfl) hle hbt hex hbg
      simp [BundleSpec.check, hst, hhb, h2]
    obtain ⟨pa, hpa⟩ := progStage_ok split cfg hcmd
    have horg := originStage_homebrew_tags split cfg
      (baseManifest cfg version pa.1) pa.2 hid hhb (by rw [ht]; rfl)
    simp [generateChecked, makeBundle, hchk, hpa, horg]

/-- Witness configuration: homebrew with a present `LauncherExec`. -/
def cfgC8lexec : BundleSpec :=
  { name := "demo", bundleType := .game, storeId := none
    homebrewId := some "hb1", exec := some "bin/demo"
    background := none, preferXboxMode := none, launcher := none
    launcherTags := none, launcherExec := some "bin/l", runnerPatch := none }

/-- Witness configuration: homebrew with an empty `LauncherTags` list. -/
def cfgC8tags : BundleSpec :=
  { name := "demo", bundleType := .game, storeId := none
    homebrewId := some "hb1", exec := some "bin/demo"
    background := none, preferXboxMode := none, launcher := none
    launcherTags := some [], launcherExec := none, runnerPatch := none }

/-- Witness for C8 at concrete homebrew specifications covering each
rejection shape. -/
theorem c8_homebrew_rejection_amended_witness :
    (∃ e, generateChecked (fun _ => some ["bin/demo"]) (fun _ => none)
      cfgC8 "0.1" = .error e) ∧
    generateChecked (fun _ => some ["bin/demo"]) (fun _ => none) cfgC8lexec
        "0.1" = .error (.bundleSpec .noHomebrewLaunchers) ∧
    generateChecked (fun _ => some ["bin/demo"]) (fun _ => none) cfgC8
        "0.1" = .error (.bundleSpec .noHomebrewBackgroundBundles) ∧
    generateChecked (fun _ => some ["bin/demo"]) (fun _ => none) cfgC8tags
        "0.1" = .error (.invalidField "LauncherTags") :=
  ⟨c8_homebrew_rejection_amended.1 _ _ cfgC8 "0.1" "hb1" rfl
      (Or.inr (Or.inr rfl)),
    c8_homebrew_rejection_amended.2.1 _ _ cfgC8lexec "0.1" "hb1" rfl rfl
      (Or.inr rfl),
    c8_homebrew_rejection_amended.2.2.1 _ _ cfgC8 "0.1" "hb1" rfl rfl rfl rfl
      (by decide) rfl rfl,
    c8_homebrew_rejection_amended.2.2.2 _ _ cfgC8tags "0.1" "hb1" rfl rfl rfl
      rfl (by decide) rfl rfl (fun e he => by cases he; decide)⟩

/-! ## Claim C6: launcher wrapper and manifest program -/

/-- The export line the emitted script actually contains: the bundle's
`lib` directory is appended after the existing search path. -/
def exportAppendLine : String :=
  "export LD_LIBRARY_PATH=\"$\x7bLD_LIBRARY_PATH\x7d:$\x7bP\x7d/lib\""

/-- The positional-parameter forwarding in the emitted script. -/
def forwardedArgs : String := "\"$@\""

/-- Modelled from the spec: the launcher script as the claim's wording
describes it, with `<dir>/lib` prepended in front of the existing
dynamic-linker search path; defined only to compare the claim's wording
against the code's actual template. -/
def specPrependScript (cmd : String) (args : List String) : String :=
  "#!/bin/sh\n\nset -x\n\nP=$(dirname \"$(busybox realpath \"$0\")\")\n\n" ++
  "export LD_LIBRARY_PATH=\"$\x7bP\x7d/lib:$\x7bLD_LIBRARY_PATH\x7d\"\n\n" ++
  "\"$\x7bP\x7d/" ++ cmd ++ "\" " ++ String.intercalate " " args ++ " \"$@\"\n\n"

theorem strData_append (s t : String) : (s ++ t).data = s.data ++ t.data := by
  cases s; cases t; rfl

theorem infixAppLeft {l A B : List Char} (h : l <:+: A) : l <:+: A ++ B :=
  h.trans (List.prefix_append A B).isInfix

theorem infixAppRight {l A B : List Char} (h : l <:+: B) : l <:+: A ++ B :=
  h.trans (List.suffix_append A B).isInfix

theorem launcherScript_export_infix (c : String) (args : List String) :
    exportAppendLine.data <:+: (launcherScript c args).data := by
  unfold launcherScript scriptHead
  simp only [strData_append]
  exact infixAppLeft (infixAppLeft (infixAppLeft (infixAppLeft
    (infixAppLeft (infixAppRight (List.IsPrefix.isInfix (by decide)))))))

theorem launcherScript_forward_infix (c : String) (args : List String) :
    forwardedArgs.data <:+: (launcherScript c args).data := by
  unfold launcherScript
  simp only [strData_append]
  exact infixAppRight (by decide)

theorem makeLauncherSh_ok_shape (split : String → Option (List String))
    (name cmd : String) (a : BundleAction)
    (h : makeLauncherSh split name cmd = .ok a) :
    ∃ text, a = .scriptFile name 0o755 text := by
  unfold makeLauncherSh at h
  cases hc : splitCommand split cmd with
  | error er => rw [hc] at h; exact Except.noConfusion h
  | ok r =>
    rw [hc] at h
    simp only [Except.map, Except.ok.injEq] at h
    exact ⟨launcherScript r.1 r.2, h.symm⟩

theorem progStage_exec_noLauncher (split : String → Option (List String))
    (cfg : BundleSpec) (e : String) (pa : Option String × List BundleAction)
    (hexec : cfg.exec = some e) (hl : cfg.launcher = none)
    (h : progStage split cfg = .ok pa) :
    ∃ c args, splitCommand split e = .ok (c, args) ∧
      pa = (some "run.sh",
        [.scriptFile "run.sh" 0o755 (launcherScript c args)]) := by
  unfold progStage at h
  rw [hexec] at h
  dsimp only at h
  rw [hl] at h
  simp only [Option.isSome_none, Bool.false_eq_true, if_false] at h
  unfold makeLauncherSh at h
  cases hc : splitCommand split e with
  | error er => rw [hc] at h; exact Except.noConfusion h
  | ok r =>
    rw [hc] at h
    simp only [Except.map, Except.ok.injEq] at h
    exact ⟨r.1, r.2, rfl, h.symm⟩

theorem progStage_exec_launcher (split : String → Option (List String))
    (cfg : BundleSpec) (e : String) (pa : Option String × List BundleAction)
    (hexec : cfg.exec = some e) (hl : cfg.launcher.isSome)
    (h : progStage split cfg = .ok pa) : pa = (some e, []) := by
  unfold progStage at h
  rw [hexec] at h
  dsimp only at h
  rw [if_pos hl] at h
  exact (Except.ok.inj h).symm

theorem progStage_noexec (split : String → Option (List String))
    (cfg : BundleSpec) (pa : Option String × List BundleAction)
    (hexec : cfg.exec = none)
    (h : progStage split cfg = .ok pa) : pa = (none, []) := by
  unfold progStage at h
  rw [hexec] at h
  exact (Except.ok.inj h).symm

theorem originStage_ok_shape (split : String → Option (List String))
    (cfg : BundleSpec) (base : Manifest) (acts : List BundleAction)
    (m' : Manifest) (acts' : List BundleAction)
    (h : originStage split cfg base acts = .ok (m', acts')) :
    m'.exec = base.exec ∧
    (∀ a ∈ acts, a ∈ acts') ∧
    (∀ a ∈ acts', a ∈ acts ∨ a = .manifestFile ∨
      ∃ mode text, a = .scriptFile "launch.sh" mode text) := by
  unfold originStage at h
  split at h
  · split at h
    · exact Except.noConfusion h
    · split at h
      · exact Except.noConfusion h
      · split at h
        · exact Except.noConfusion h
        · obtain ⟨hm, hacts⟩ := Prod.mk.injEq .. ▸ Except.ok.inj h
          subst hm hacts
          refine ⟨rfl, fun a ha => List.mem_append_left _ ha, fun a ha => ?_⟩
          rcases List.mem_append.mp ha with ha | ha
          · exact Or.inl ha
          · rcases List.mem_singleton.mp ha with rfl
            exact Or.inr (Or.inl rfl)
  · split at h
    · split at h
      · split at h
        · split at h
          · rename_i a hla
            obtain ⟨hm, hacts⟩ := Prod.mk.injEq .. ▸ Except.ok.inj h
            subst hm hacts
            obtain ⟨text, htext⟩ := makeLauncherSh_ok_shape _ _ _ _ hla
            refine ⟨rfl, fun x hx => List.mem_append_left _ hx,
              fun x hx => ?_⟩
            rcases List.mem_append.mp hx with hx | hx
            · exact Or.inl hx
            · rcases List.mem_cons.mp hx with rfl | hx
              · exact Or.inr (Or.inr ⟨0o755, text, htext⟩)
              · rcases List.mem_singleton.mp hx with rfl
                exact Or.inr (Or.inl rfl)
          · exact Except.noConfusion h
        · exact Except.noConfusion h
      · split at h
        · exact Except.noConfusion h
        · obtain ⟨hm, hacts⟩ := Prod.mk.injEq .. ▸ Except.ok.inj h
          subst hm hacts
          refine ⟨rfl, fun a ha => List.mem_append_left _ ha, fun a ha => ?_⟩
          rcases List.mem_append.mp ha with ha | ha
          · exact Or.inl ha
          · rcases List.mem_singleton.mp ha with rfl
            exact Or.inr (Or.inl rfl)
    · exact Except.noConfusion h

theorem patchStage_ok_shape (canonPatch : String → Option FsPath)
    (cfg : BundleSpec) (ma mb : Manifest × List BundleAction)
    (h : patchStage canonPatch cfg ma = .ok mb) :
    mb.1 = ma.1 ∧ (∀ a ∈ ma.2, a ∈ mb.2) ∧
    (∀ a ∈ mb.2, a ∈ ma.2 ∨ ∃ loc, a = .runnerPatchFile loc) := by
  unfold patchStage at h
  split at h
  · split at h
    · rename_i loc hloc
      cases Except.ok.inj h
      refine ⟨rfl, fun a ha => List.mem_append_left _ ha, fun a ha => ?_⟩
      rcases List.mem_append.mp ha with ha | ha
      · exact Or.inl ha
      · rcases List.mem_singleton.mp ha with rfl
        exact Or.inr ⟨loc, rfl⟩
    · exact Except.noConfusion h
  · cases Except.ok.inj h
    exact ⟨rfl, fun a ha => ha, fun a ha => Or.inl ha⟩

theorem makeBundle_ok_parts (split : String → Option (List String))
    (canonPatch : String → Option FsPath) (cfg : BundleSpec)
    (version : String) (m : Manifest) (acts : List BundleAction)
    (h : makeBundle split canonPatch cfg version = .ok (m, acts)) :
    ∃ pa ma, progStage split cfg = .ok pa ∧
      originStage split cfg (baseManifest cfg version pa.1) pa.2 = .ok ma ∧
      patchStage canonPatch cfg ma = .ok (m, acts) := by
  unfold makeBundle at h
  split at h
  · exact Except.noConfusion h
  · rename_i pa hpa
    split at h
    · exact Except.noConfusion h
    · rename_i ma hma
      exact ⟨pa, ma, hpa, hma, h⟩

/-- Claim C6, amended: with `exec` present and `launcher` absent,
`make_bundle` writes a `run.sh` wrapper with permissions `0755` whose
text appends `<dir>/lib` to the end of the dynamic-linker search path
(not in front of it, as the specification's "prepends" would have it)
and invokes the tokenized command forwarding the positional parameters,
and the manifest's effective program becomes `run.sh`; with both `exec`
and `launcher` present no `run.sh` wrapper is written and the manifest
records `exec` as-is; with `exec` absent the manifest records no exec. -/
theorem c6_launcher_wrapper_amended :
    (∀ (split : String → Option (List String))
        (canonPatch : String → Option FsPath) (cfg : BundleSpec)
        (version e : String) (m : Manifest) (acts : List BundleAction),
      cfg.exec = some e → cfg.launcher = none →
      makeBundle split canonPatch cfg version = .ok (m, acts) →
        m.exec = some "run.sh" ∧
        ∃ c args, splitCommand split e = .ok (c, args) ∧
          BundleAction.scriptFile "run.sh" 0o755 (launcherScript c args)
            ∈ acts ∧
          exportAppendLine.data <:+: (launcherScript c args).data ∧
          forwardedArgs.data <:+: (launcherScript c args).data) ∧
    (∀ (split : String → Option (List String))
        (canonPatch : String → Option FsPath) (cfg : BundleSpec)
        (version e : String) (m : Manifest) (acts : List BundleAction),
      cfg.exec = some e → cfg.launcher.isSome →
      makeBundle split canonPatch cfg version = .ok (m, acts) →
        m.exec = some e ∧
        ∀ mode text, BundleAction.scriptFile "run.sh" mode text ∉ acts) ∧
    (∀ (split : String → Option (List String))
        (canonPatch : String → Option FsPath) (cfg : BundleSpec)
        (version : String) (m : Manifest) (acts : List BundleAction),
      cfg.exec = none →
      makeBundle split canonPatch cfg version = .ok (m, acts) →
        m.exec = none) := by
  refine ⟨?_, ?_, ?_⟩
  · intro split canonPatch cfg version e m acts hexec hl h
    obtain ⟨pa, ma, hpa, hma, hpatch⟩ :=
      makeBundle_ok_parts split canonPatch cfg version m acts h
    obtain ⟨c, args, hc, hpaeq⟩ :=
      progStage_exec_noLauncher split cfg e pa hexec hl hpa
    obtain ⟨hom, hoacts, -⟩ :=
      originStage_ok_shape split cfg _ _ ma.1 ma.2 (by rw [← hma])
    obtain ⟨hpm, hpacts, -⟩ :=
      patchStage_ok_shape canonPatch cfg ma (m, acts) hpatch
    refine ⟨?_, c, args, hc, ?_,
      launcherScript_export_infix c args,
      launcherScript_forward_infix c args⟩
    · have hm : m = ma.1 := hpm
      rw [hm, hom, hpaeq]
      rfl
    · refine hpacts _ (hoacts _ ?_)
      rw [hpaeq]
      exact List.mem_singleton.mpr rfl
  · intro split canonPatch cfg version e m acts hexec hl h
    obtain ⟨pa, ma, hpa, hma, hpatch⟩ :=
      makeBundle_ok_parts split canonPatch cfg version m acts h
    have hpaeq := progStage_exec_launcher split cfg e pa hexec hl hpa
    obtain ⟨hom, -, hoacts⟩ :=
      originStage_ok_shape split cfg _ _ ma.1 ma.2 (by rw [← hma])
    obtain ⟨hpm, -, hpacts⟩ :=
      patchStage_ok_shape canonPatch cfg ma (m, acts) hpatch
    constructor
    · have hm : m = ma.1 := hpm
      rw [hm, hom, hpaeq]
      rfl
    · intro mode text hmem
      rcases hpacts _ hmem with hmem' | ⟨loc, hloc⟩
      · rcases hoacts _ hmem' with hmem'' | hmem'' | ⟨md, tx, htx⟩
        · rw [hpaeq] at hmem''
          exact absurd hmem'' (List.not_mem_nil _)
        · exact BundleAction.noConfusion hmem''
        · injection htx with h1 h2 h3
          exact absurd h1 (by decide)
      · exact BundleAction.noConfusion hloc
  · intro split canonPatch cfg version m acts hexec h
    obtain ⟨pa, ma, hpa, hma, hpatch⟩ :=
      makeBundle_ok_parts split canonPatch cfg version m acts h
    have hpaeq := progStage_noexec split cfg pa hexec hpa
    obtain ⟨hom, -, -⟩ :=
      originStage_ok_shape split cfg _ _ ma.1 ma.2 (by rw [← hma])
    obtain ⟨hpm, -, -⟩ :=
      patchStage_ok_shape canonPatch cfg ma (m, acts) hpatch
    have hm : m = ma.1 := hpm
    rw [hm, hom, hpaeq]
    rfl

/-- Counterexample configuration for C6: a plain homebrew game with an
exec and no launcher. -/
def cfgC6 : BundleSpec :=
  { name := "demo", bundleType := .game, storeId := none
    homebrewId := some "hb1", exec := some "bin/demo"
    background := none, preferXboxMode := none, launcher := none
    launcherTags := none, launcherExec := none, runnerPatch := none }

/-- Counterexample for C6: the wrapper `make_bundle` actually writes is
not the script the claim describes, because the emitted export line
appends `<dir>/lib` after the existing `LD_LIBRARY_PATH` instead of
prepending it. -/
theorem c6_prepend_counterexample :
    makeBundle (fun _ => some ["bin/demo"]) (fun _ => none) cfgC6 "0.1" =
      .ok (⟨"demo", .game, some "hb1", none, some "run.sh", none,
          some "0.1", none, none, none⟩,
        [.scriptFile "run.sh" 0o755 (launcherScript "bin/demo" []),
          .manifestFile]) ∧
    launcherScript "bin/demo" [] ≠ specPrependScript "bin/demo" [] :=
  ⟨by decide, by decide⟩

/-- Witness configuration: exec together with an external launcher. -/
def cfgC6L : BundleSpec :=
  { name := "demo", bundleType := .game, storeId := none
    homebrewId := some "hb1", exec := some "bin/demo"
    background := none, preferXboxMode := none, launcher := some "ext"
    launcherTags := none, launcherExec := none, runnerPatch := none }

/-- Witness configuration: no exec at all. -/
def cfgC6N : BundleSpec :=
  { name := "demo", bundleType := .game, storeId := none
    homebrewId := some "hb1", exec := none
    background := none, preferXboxMode := none, launcher := none
    launcherTags := none, launcherExec := none, runnerPatch := none }

/-- Witness manifest for the wrapper case. -/
def manC6 : Manifest :=
  ⟨"demo", .game, some "hb1", none, some "run.sh", none, some "0.1",
    none, none, none⟩

/-- Witness actions for the wrapper case. -/
def actsC6 : List BundleAction :=
  [.scriptFile "run.sh" 0o755 (launcherScript "bin/demo" []), .manifestFile]

/-- Witness manifest for the external-launcher case. -/
def manC6L : Manifest :=
  ⟨"demo", .game, some "hb1", none, some "bin/demo", none, some "0.1",
    some "ext", none, none⟩

/-- Witness manifest for the no-exec case. -/
def manC6N : Manifest :=
  ⟨"demo", .game, some "hb1", none, none, none, some "0.1", none, none, none⟩

/-- Witness for C6 at the three concrete configurations. -/
theorem c6_launcher_wrapper_amended_witness :
    (manC6.exec = some "run.sh" ∧
      ∃ c args,
        splitCommand (fun _ => some ["bin/demo"]) "bin/demo" = .ok (c, args) ∧
        BundleAction.scriptFile "run.sh" 0o755 (launcherScript c args)
          ∈ actsC6 ∧
        exportAppendLine.data <:+: (launcherScript c args).data ∧
        forwardedArgs.data <:+: (launcherScript c args).data) ∧
    (manC6L.exec = some "bin/demo" ∧
      ∀ mode text,
        BundleAction.scriptFile "run.sh" mode text ∉ [BundleAction.manifestFile]) ∧
    manC6N.exec = none :=
  ⟨c6_launcher_wrapper_amended.1 (fun _ => some ["bin/demo"]) (fun _ => none)
      cfgC6 "0.1" "bin/demo" manC6 actsC6 rfl rfl (by decide),
    c6_launcher_wrapper_amended.2.1 (fun _ => some ["bin/demo"])
      (fun _ => none) cfgC6L "0.1" "bin/demo" manC6L [.manifestFile] rfl rfl
      (by decide),
    c6_launcher_wrapper_amended.2.2 (fun _ => some ["bin/demo"])
      (fun _ => none) cfgC6N "0.1" manC6N [.manifestFile] rfl (by decide)⟩

/-! ## Splitting and joining lemmas -/

theorem splitChar_ne_nil (c : Char) : ∀ l : List Char, splitChar c l ≠ [] := by
  intro l
  induction l with
  | nil => simp [splitChar]
  | cons a t ih =>
    unfold splitChar
    by_cases h : a = c
    · simp [h]
    · simp only [h, if_false]
      cases ht : splitChar c t with
      | nil => simp
      | cons x xs => simp

theorem splitChar_no_sep (c : Char) :
    ∀ (l : List Char) (x : List Char), x ∈ splitChar c l → c ∉ x := by
  intro l
  induction l with
  | nil =>
    intro x hx
    simp [splitChar] at hx
    simp [hx]
  | cons a t ih =>
    intro x hx
    unfold splitChar at hx
    by_cases h : a = c
    · simp only [h, if_pos rfl] at hx
      rcases List.mem_cons.mp hx with hx | hx
      · simp [hx]
      · exact ih x hx
    · simp only [h, if_false] at hx
      cases ht : splitChar c t with
      | nil => exact absurd ht (splitChar_ne_nil c t)
      | cons y ys =>
        rw [ht] at hx
        rcases List.mem_cons.mp hx with hx | hx
        · subst hx
          intro hmem
          rcases List.mem_cons.mp hmem with hc | hc
          · exact h hc.symm
          · exact ih y (ht ▸ List.mem_cons_self y ys) hc
        · exact ih x (ht ▸ List.mem_cons_of_mem y hx)

theorem splitChar_cons_sep (c : Char) (l : List Char) :
    splitChar c (c :: l) = [] :: splitChar c l := by
  simp [splitChar]

theorem splitChar_cons_ne (c a : Char) (l : List Char) (h : a ≠ c) :
    splitChar c (a :: l) =
      match splitChar c l with
      | [] => [[a]]
      | h :: t => (a :: h) :: t := by
  simp [splitChar, h]

theorem joinChar_splitChar (c : Char) :
    ∀ l : List Char, joinChar c (splitChar c l) = l := by
  intro l
  induction l with
  | nil => rfl
  | cons a t ih =>
    by_cases h : a = c
    · subst h
      rw [splitChar_cons_sep]
      cases ht : splitChar a t with
      | nil => exact absurd ht (splitChar_ne_nil a t)
      | cons y ys =>
        show [] ++ a :: joinChar a (y :: ys) = a :: t
        rw [← ht, ih]
        rfl
    · rw [splitChar_cons_ne c a t h]
      cases ht : splitChar c t with
      | nil => exact absurd ht (splitChar_ne_nil c t)
      | cons y ys =>
        cases ys with
        | nil =>
          show a :: y = a :: t
          have hy : t = y := by rw [← ih, ht]; rfl
          rw [hy]
        | cons z zs =>
          show (a :: y) ++ c :: joinChar c (z :: zs) = a :: t
          rw [List.cons_append]
          congr 1
          rw [show y ++ c :: joinChar c (z :: zs) =
            joinChar c (y :: z :: zs) from rfl, ← ht, ih]

theorem splitChar_append (c : Char) :
    ∀ (x y : List Char),
      splitChar c (x ++ c :: y) = splitChar c x ++ splitChar c y := by
  intro x y
  induction x with
  | nil => simp [splitChar_cons_sep, splitChar]
  | cons a t ih =>
    by_cases h : a = c
    · subst h
      rw [List.cons_append, splitChar_cons_sep, splitChar_cons_sep, ih,
        List.cons_append]
    · rw [List.cons_append, splitChar_cons_ne c a _ h,
        splitChar_cons_ne c a t h, ih]
      cases ht : splitChar c t with
      | nil => exact absurd ht (splitChar_ne_nil c t)
      | cons z zs => simp

theorem joinChar_append_singleton (c : Char) :
    ∀ (L : List (List Char)) (x : List Char), L ≠ [] →
      joinChar c (L ++ [x]) = joinChar c L ++ c :: x := by
  intro L
  induction L with
  | nil => intro x h; exact absurd rfl h
  | cons a t ih =>
    intro x _
    cases t with
    | nil => rfl
    | cons b ts =>
      have hih := ih x (by simp)
      show a ++ c :: joinChar c ((b :: ts) ++ [x]) =
        (a ++ c :: joinChar c (b :: ts)) ++ c :: x
      rw [hih]
      simp

theorem splitChar_of_no_sep (c : Char) (l : List Char) (h : c ∉ l) :
    splitChar c l = [l] := by
  induction l with
  | nil => rfl
  | cons a t ih =>
    have ha : a ≠ c := by
      intro he
      subst he
      exact h (List.mem_cons_self a t)
    rw [splitChar_cons_ne c a t ha, ih (fun hm => h (List.mem_cons_of_mem a hm))]

/-! ## Association-list membership lemmas -/

theorem alInsert_mem {V : Type} :
    ∀ (m : List (String × V)) (k : String) (v : V) (kv : String × V),
      kv ∈ alInsert m k v → kv = (k, v) ∨ kv ∈ m := by
  intro m k v kv
  induction m with
  | nil => intro h; simp [alInsert] at h; exact Or.inl h
  | cons hd t ih =>
    obtain ⟨k', v'⟩ := hd
    intro h
    unfold alInsert at h
    split at h
    · rcases List.mem_cons.mp h with h | h
      · exact Or.inl h
      · exact Or.inr (List.mem_cons_of_mem _ h)
    · rcases List.mem_cons.mp h with h | h
      · exact Or.inr (h ▸ List.mem_cons_self _ _)
      · rcases ih h with h | h
        · exact Or.inl h
        · exact Or.inr (List.mem_cons_of_mem _ h)

theorem alFind_mem {V : Type} (m : List (String × V)) (k : String) (v : V)
    (h : alFind m k = some v) : (k, v) ∈ m := by
  unfold alFind at h
  cases hf : m.find? (fun p => p.1 = k) with
  | none => rw [hf] at h; exact Option.noConfusion h
  | some p =>
    rw [hf] at h
    have hmem := List.mem_of_find?_eq_some hf
    have hp := List.find?_some hf
    simp only [decide_eq_true_eq] at hp
    simp only [Option.map_some', Option.some.injEq] at h
    have : p = (k, v) := by
      obtain ⟨p1, p2⟩ := p
      simp only at hp h
      rw [hp, h]
    exact this ▸ hmem

/-! ## Good archive names -/

/-- A normal path component: non-empty, not a dot component, and free of
separators. -/
def goodComp (c : List Char) : Prop :=
  c ≠ [] ∧ c ≠ ['.'] ∧ c ≠ ['.', '.'] ∧ '/' ∉ c

instance (c : List Char) : Decidable (goodComp c) := by
  unfold goodComp; infer_instance

/-- An archive name whose slash-separated components are all normal. -/
def goodName (n : String) : Prop := ∀ c ∈ comps n, goodComp c

instance (n : String) : Decidable (goodName n) := by
  unfold goodName; infer_instance

/-- A good soname: a good single component, as a string. -/
def goodSoname (d : String) : Prop := goodComp d.data

instance (d : String) : Decidable (goodSoname d) := by
  unfold goodSoname; infer_instance

theorem pathFileName_of_good (n : String) (hg : goodName n) :
    ∃ last, (comps n).getLast? = some last ∧ pathFileName n = some ⟨last⟩ := by
  unfold pathFileName
  have hfil : (comps n).filter (fun c => decide (c ≠ [] ∧ c ≠ ['.'])) =
      comps n := by
    apply List.filter_eq_self.mpr
    intro a ha
    have := hg a ha
    simp only [goodComp] at this
    simp [this.1, this.2.1]
  rw [hfil]
  cases hl : (comps n).getLast? with
  | none =>
    exact absurd (List.getLast?_eq_none_iff.mp hl) (splitChar_ne_nil '/' n.data)
  | some last =>
    have hmem : last ∈ comps n := List.mem_of_mem_getLast? hl
    have hgood := hg last hmem
    refine ⟨last, rfl, ?_⟩
    simp only
    rw [if_neg hgood.2.2.1]

theorem comps_eq_dropLast_append (n : String) :
    ∀ last, (comps n).getLast? = some last →
      comps n = (comps n).dropLast ++ [last] := by
  intro last hl
  exact (List.dropLast_append_getLast? last hl).symm

theorem nameParentJoin_self (n d : String) (hg : goodName n)
    (h : nameParentJoin n d = n) : pathFileName n = some d := by
  obtain ⟨last, hlast, hpf⟩ := pathFileName_of_good n hg
  unfold nameParentJoin at h
  cases hd : (comps n).dropLast with
  | nil =>
    rw [hd] at h
    subst h
    have hco : comps d = [last] := by
      have := comps_eq_dropLast_append d last hlast
      rw [hd] at this
      simpa using this
    have : d.data = last := by
      have hj := joinChar_splitChar '/' d.data
      rw [show splitChar '/' d.data = comps d from rfl, hco] at hj
      unfold joinChar at hj
      exact hj.symm
    rw [hpf]
    congr 1
    exact String.ext this.symm
  | cons p ps =>
    rw [hd] at h
    have hdata : joinChar '/' (p :: ps) ++ '/' :: d.data = n.data := by
      have := congrArg String.data h
      exact this
    have hn : n.data = joinChar '/' (comps n) := (joinChar_splitChar '/' n.data).symm
    rw [comps_eq_dropLast_append n last hlast, hd] at hn
    rw [joinChar_append_singleton '/' (p :: ps) last (by simp)] at hn
    rw [hn] at hdata
    have := List.append_cancel_left hdata
    have hdl : d.data = last := List.cons.inj this |>.2
    rw [hpf]
    congr 1
    exact String.ext hdl.symm

/-! ## Seed-phase lemmas -/

theorem seedFold_queued_src (env : LdEnv) :
    ∀ (elves : List FileEntry) (st : SeedState) (q : FsPath),
      q ∈ (List.foldl (seedStep env) st elves).queued →
        q ∈ st.queued ∨ ∃ s ∈ elves, q = s.location := by
  intro elves
  induction elves with
  | nil => intro st q h; exact Or.inl h
  | cons e t ih =>
    intro st q h
    rw [List.foldl_cons] at h
    rcases ih (seedStep env st e) q h with h | ⟨s, hs, hq⟩
    · unfold seedStep at h
      split at h
      · exact Or.inl h
      · rcases List.mem_cons.mp h with h | h
        · exact Or.inr ⟨e, List.mem_cons_self _ _, h⟩
        · exact Or.inl h
    · exact Or.inr ⟨s, List.mem_cons_of_mem _ hs, hq⟩

theorem seedStep_queued_mono (env : LdEnv) (st : SeedState) (e : FileEntry)
    (q : FsPath) (h : q ∈ st.queued) : q ∈ (seedStep env st e).queued := by
  unfold seedStep
  split
  · exact h
  · exact List.mem_cons_of_mem _ h

theorem seedFold_queued_mono (env : LdEnv) :
    ∀ (elves : List FileEntry) (st : SeedState) (q : FsPath),
      q ∈ st.queued → q ∈ (List.foldl (seedStep env) st elves).queued := by
  intro elves
  induction elves with
  | nil => intro st q h; exact h
  | cons e t ih =>
    intro st q h
    rw [List.foldl_cons]
    exact ih _ q (seedStep_queued_mono env st e q h)

theorem seedFold_seeds_queued (env : LdEnv) :
    ∀ (elves : List FileEntry) (st : SeedState) (s : FileEntry),
      s ∈ elves → s.location ∈ (List.foldl (seedStep env) st elves).queued := by
  intro elves
  induction elves with
  | nil => intro st s h; exact absurd h (List.not_mem_nil s)
  | cons e t ih =>
    intro st s h
    rw [List.foldl_cons]
    rcases List.mem_cons.mp h with h | h
    · subst h
      refine seedFold_queued_mono env t _ s.location ?_
      unfold seedStep
      split
      · assumption
      · exact List.mem_cons_self _ _
    · exact ih _ s h

theorem seedFold_work_iff (env : LdEnv) :
    ∀ (elves : List FileEntry) (st : SeedState),
      (∀ p, p ∈ st.work ↔ p ∈ st.queued) →
      ∀ p, p ∈ (List.foldl (seedStep env) st elves).work ↔
        p ∈ (List.foldl (seedStep env) st elves).queued := by
  intro elves
  induction elves with
  | nil => intro st h; exact h
  | cons e t ih =>
    intro st h p
    rw [List.foldl_cons]
    refine ih _ ?_ p
    intro q
    unfold seedStep
    split
    · exact h q
    · simp only [List.mem_cons]
      rw [h q]

theorem seedFold_ownLibs_src (env : LdEnv) :
    ∀ (elves : List FileEntry) (st : SeedState) (x : String),
      x ∈ (List.foldl (seedStep env) st elves).ownLibs →
        x ∈ st.ownLibs ∨ ∃ s ∈ elves, pathFileName s.name = some x := by
  intro elves
  induction elves with
  | nil => intro st x h; exact Or.inl h
  | cons e t ih =>
    intro st x h
    rw [List.foldl_cons] at h
    rcases ih _ x h with h | ⟨s, hs, hx⟩
    · have hstep : x ∈ st.ownLibs ∨ pathFileName e.name = some x := by
        unfold seedStep at h
        by_cases hq : e.location ∈ st.queued
        · rw [if_pos hq] at h
          exact Or.inl h
        · rw [if_neg hq] at h
          cases hpf : pathFileName e.name with
          | none =>
            rw [hpf] at h
            exact Or.inl h
          | some fv =>
            rw [hpf] at h
            rcases List.mem_cons.mp h with h | h
            · exact Or.inr (by rw [h])
            · exact Or.inl h
      rcases hstep with h | h
      · exact Or.inl h
      · exact Or.inr ⟨e, List.mem_cons_self _ _, h⟩
    · exact Or.inr ⟨s, List.mem_cons_of_mem _ hs, hx⟩

theorem seedStep_ownLibs_mono (env : LdEnv) (st : SeedState) (e : FileEntry)
    (x : String) (h : x ∈ st.ownLibs) : x ∈ (seedStep env st e).ownLibs := by
  unfold seedStep
  split
  · exact h
  · split
    · exact List.mem_cons_of_mem _ h
    · exact h

theorem seedFold_ownLibs_mono (env : LdEnv) :
    ∀ (elves : List FileEntry) (st : SeedState) (x : String),
      x ∈ st.ownLibs → x ∈ (List.foldl (seedStep env) st elves).ownLibs := by
  intro elves
  induction elves with
  | nil => intro st x h; exact h
  | cons e t ih =>
    intro st x h
    rw [List.foldl_cons]
    exact ih _ x (seedStep_ownLibs_mono env st e x h)

theorem seedFold_ownLibs_mem (env : LdEnv) :
    ∀ (elves : List FileEntry) (st : SeedState) (s : FileEntry) (f : String),
      List.Pairwise (fun a b => a.location ≠ b.location) elves →
      (∀ t ∈ elves, t.location ∉ st.queued) →
      s ∈ elves → pathFileName s.name = some f →
      f ∈ (List.foldl (seedStep env) st elves).ownLibs := by
  intro elves
  induction elves with
  | nil => intro st s f _ _ h _; exact absurd h (List.not_mem_nil s)
  | cons e t ih =>
    intro st s f hpw hfresh hs hf
    rw [List.pairwise_cons] at hpw
    rw [List.foldl_cons]
    rcases List.mem_cons.mp hs with hs | hs
    · subst hs
      refine seedFold_ownLibs_mono env t _ f ?_
      unfold seedStep
      rw [if_neg (hfresh s (List.mem_cons_self _ _))]
      rw [hf]
      exact List.mem_cons_self _ _
    · refine ih _ s f hpw.2 ?_ hs hf
      intro u hu
      unfold seedStep
      rw [if_neg (hfresh e (List.mem_cons_self _ _))]
      intro hmem
      rcases List.mem_cons.mp hmem with hmem | hmem
      · exact (hpw.1 u hu).symm hmem
      · exact hfresh u (List.mem_cons_of_mem _ hu) hmem

theorem fav_values (env : LdEnv) (elf : FileEntry)
    (m : List (String × FileEntry)) :
    ∀ kv ∈ findAdditionalVersions env elf m,
      kv ∈ m ∨ (kv.2.location = elf.location ∧
        kv.2.name = nameParentJoin elf.name kv.1) := by
  unfold findAdditionalVersions
  cases hl : elf.location.getLast? with
  | none => exact fun kv h => Or.inl h
  | some file =>
    simp only
    generalize dotPrefixes file = deps
    induction deps generalizing m with
    | nil => exact fun kv h => Or.inl h
    | cons d ds ih =>
      intro kv h
      rw [List.foldl_cons] at h
      by_cases hc : env.canonicalize (elf.location.dropLast ++ [d]) =
          some elf.location
      · rw [if_pos hc] at h
        rcases ih _ kv h with h | h
        · rcases alInsert_mem m d _ kv h with h | h
          · exact Or.inr (by rw [h]; exact ⟨rfl, rfl⟩)
          · exact Or.inl h
        · exact Or.inr h
      · rw [if_neg hc] at h
        exact ih m kv h

theorem seedFold_extra_src (env : LdEnv) :
    ∀ (elves : List FileEntry) (st : SeedState) (kv : String × FileEntry),
      kv ∈ (List.foldl (seedStep env) st elves).ownExtra →
        kv ∈ st.ownExtra ∨ ∃ s ∈ elves, kv.2.location = s.location ∧
          kv.2.name = nameParentJoin s.name kv.1 := by
  intro elves
  induction elves with
  | nil => intro st kv h; exact Or.inl h
  | cons e t ih =>
    intro st kv h
    rw [List.foldl_cons] at h
    rcases ih _ kv h with h | ⟨s, hs, h1, h2⟩
    · unfold seedStep at h
      split at h
      · exact Or.inl h
      · rcases fav_values env e st.ownExtra kv h with h | h
        · exact Or.inl h
        · exact Or.inr ⟨e, List.mem_cons_self _ _, h.1, h.2⟩
    · exact Or.inr ⟨s, List.mem_cons_of_mem _ hs, h1, h2⟩

/-! ## Traversal-loop lemmas -/

theorem runLoop_preserve (env : LdEnv) (extra : List (String × FileEntry))
    (P : TravState → Prop)
    (hpop : ∀ st p rest, st.work = p :: rest → P st →
      P { st with work := rest })
    (hdep : ∀ st d st', P st → processDep env extra st d = .ok st' → P st') :
    ∀ (fuel : Nat) (st st' : TravState),
      runLoop env extra fuel st = some (.ok st') → P st → P st' := by
  intro fuel
  induction fuel with
  | zero => intro st st' h _; simp [runLoop] at h
  | succ n ih =>
    intro st st' h hp
    rw [runLoop] at h
    split at h
    · rename_i hw
      simp only [Option.some_inj, Except.ok.injEq] at h
      exact h ▸ hp
    · rename_i p rest hw
      split at h
      · rename_i deps helf
        split at h
        · rename_i st'' hfold
          exact ih st'' st' h
            (foldlMExceptOkInd P (fun s a s' => hdep s a s') hfold
              (hpop st p rest hw hp))
        · simp at h
      · rename_i helf
        exact ih _ st' h (hpop st p rest hw hp)
      · rename_i msg helf
        simp at h

theorem runLoop_final_work (env : LdEnv) (extra : List (String × FileEntry)) :
    ∀ (fuel : Nat) (st st' : TravState),
      runLoop env extra fuel st = some (.ok st') → st'.work = [] := by
  intro fuel
  induction fuel with
  | zero => intro st st' h; simp [runLoop] at h
  | succ n ih =>
    intro st st' h
    rw [runLoop] at h
    split at h
    · rename_i hw
      simp only [Option.some_inj, Except.ok.injEq] at h
      rw [← h]
      exact hw
    · split at h
      · split at h
        · exact ih _ st' h
        · simp at h
      · exact ih _ st' h
      · simp at h

/-! ## Claim C2: shape of the resolver output -/

theorem pairwise_loc_eq :
    ∀ (elves : List FileEntry),
      List.Pairwise (fun a b => a.location ≠ b.location) elves →
      ∀ s ∈ elves, ∀ t ∈ elves, s.location = t.location → s = t := by
  intro elves
  induction elves with
  | nil => intro _ s hs; exact absurd hs (List.not_mem_nil s)
  | cons e rest ih =>
    intro hpw s hs t ht heq
    rw [List.pairwise_cons] at hpw
    rcases List.mem_cons.mp hs with hs1 | hs1 <;>
      rcases List.mem_cons.mp ht with ht1 | ht1
    · rw [hs1, ht1]
    · rw [hs1] at heq
      exact absurd heq (hpw.1 t ht1)
    · rw [ht1] at heq
      exact absurd heq.symm (hpw.1 s hs1)
    · exact ih hpw.2 s hs1 t ht1 heq

theorem resolveDeps_ok_full (env : LdEnv) (elves res : List FileEntry)
    (h : resolveDeps env elves = some (.ok res)) :
    ∃ stF, resolveDepsFull env elves = some (.ok stF) ∧ stF.res = res := by
  unfold resolveDeps at h
  cases hr : resolveDepsFull env elves with
  | none => rw [hr] at h; exact Option.noConfusion h
  | some r =>
    rw [hr] at h
    cases r with
    | ok st =>
      simp [Except.map] at h
      exact ⟨st, rfl, h⟩
    | error e => simp [Except.map] at h

/-- Invariant of the traversal loop used for the resolver-output claim:
the seeds stay queued, the seed-phase own libraries stay recorded, and
every emitted entry is either a recorded sibling alias or a `lib/`-named
build-cache entry whose location is no seed's, and is never a seed. -/
def C2Inv (env : LdEnv) (elves : List FileEntry)
    (extra : List (String × FileEntry)) (st : TravState) : Prop :=
  (∀ s ∈ elves, s.location ∈ st.queued) ∧
  (∀ x ∈ (seedPhase env elves).ownLibs, x ∈ st.ownLibs) ∧
  (∀ e ∈ st.res,
    ((∃ kv ∈ extra, kv.2 = e) ∨
      ((∃ d, e.name = libJoin d) ∧ ∀ s ∈ elves, e.location ≠ s.location)) ∧
    e ∉ elves)

theorem c2inv_step (env : LdEnv) (elves : List FileEntry)
    (hpw : List.Pairwise (fun a b => a.location ≠ b.location) elves)
    (hgn : ∀ s ∈ elves, goodName s.name) :
    ∀ (st : TravState) (d : String) (st' : TravState),
      C2Inv env elves (seedPhase env elves).ownExtra st →
      processDep env (seedPhase env elves).ownExtra st d = .ok st' →
      C2Inv env elves (seedPhase env elves).ownExtra st' := by
  intro st d st' hinv hstep
  obtain ⟨h1, h2, h3⟩ := hinv
  unfold processDep at hstep
  split at hstep
  · cases Except.ok.inj hstep
    exact ⟨h1, h2, h3⟩
  · rename_i hb
    push_neg at hb
    split at hstep
    · rename_i entry hx
      cases Except.ok.inj hstep
      refine ⟨h1, fun x hx' => List.mem_cons_of_mem _ (h2 x hx'), ?_⟩
      intro e he
      rcases List.mem_append.mp he with he | he
      · exact h3 e he
      · rcases List.mem_singleton.mp he with rfl
        have hkv := alFind_mem _ d e hx
        refine ⟨Or.inl ⟨(d, e), hkv, rfl⟩, ?_⟩
        intro hmem
        rcases seedFold_extra_src env elves ⟨[], [], [], []⟩ (d, e) hkv
          with hsrc | ⟨si, hsi, hloc, hname⟩
        · exact absurd hsrc (List.not_mem_nil _)
        · have hei : e = si :=
            pairwise_loc_eq elves hpw e hmem si hsi hloc
          have hself : nameParentJoin si.name d = si.name := by
            rw [← hname, hei]
          have hpf : pathFileName si.name = some d :=
            nameParentJoin_self si.name d (hgn si hsi) hself
          have hd : d ∈ (seedPhase env elves).ownLibs :=
            seedFold_ownLibs_mem env elves ⟨[], [], [], []⟩ si d hpw
              (fun t _ ht => absurd ht (List.not_mem_nil _)) hsi hpf
          exact hb.2 (h2 d hd)
    · rename_i hx
      split at hstep
      · rename_i p hp
        split at hstep
        · cases Except.ok.inj hstep
          exact ⟨h1, h2, h3⟩
        · rename_i hq
          cases Except.ok.inj hstep
          refine ⟨fun s hs => List.mem_cons_of_mem _ (h1 s hs), h2, ?_⟩
          intro e he
          rcases List.mem_append.mp he with he | he
          · exact h3 e he
          · rcases List.mem_singleton.mp he with rfl
            refine ⟨Or.inr ⟨⟨d, rfl⟩, ?_⟩, ?_⟩
            · intro s hs heq
              have hp2 : p = s.location := heq
              exact hq (hp2 ▸ h1 s hs)
            · intro hmem
              exact hq (h1 _ hmem)
      · exact Except.noConfusion hstep

/-- Claim C2, amended: every entry `resolve_deps` emits is either a
recorded sibling-alias entry (its location is a seed's location and its
archive name is the alias soname joined next to that seed's archive
name — for seeds under `bin/` or `_unused/` this is not of the form
`lib/<soname>`) or a build-cache entry named `lib/<soname>` whose
location differs from every seed's; and when the seeds have pairwise
distinct locations and well-formed archive names, no emitted entry is
one of the seed entries themselves. -/
theorem c2_resolver_output_amended :
    ∀ (env : LdEnv) (elves res : List FileEntry),
      List.Pairwise (fun a b => a.location ≠ b.location) elves →
      (∀ s ∈ elves, goodName s.name) →
      resolveDeps env elves = some (.ok res) →
      ∀ e ∈ res,
        ((∃ s ∈ elves, e.location = s.location ∧
            ∃ d, e.name = nameParentJoin s.name d) ∨
          ((∃ d, e.name = libJoin d) ∧
            ∀ s ∈ elves, e.location ≠ s.location)) ∧
        e ∉ elves := by
  intro env elves res hpw hgn hok
  obtain ⟨stF, hfull, hres⟩ := resolveDeps_ok_full env elves res hok
  unfold resolveDepsFull at hfull
  have hinv : C2Inv env elves (seedPhase env elves).ownExtra stF := by
    refine runLoop_preserve env _ _ ?_ (c2inv_step env elves hpw hgn) _ _ _
      hfull ?_
    · intro st p rest hw hp
      exact ⟨hp.1, hp.2.1, hp.2.2⟩
    · refine ⟨?_, fun x hx => hx, ?_⟩
      · intro s hs
        exact seedFold_seeds_queued env elves ⟨[], [], [], []⟩ s hs
      · intro e he
        exact absurd he (List.not_mem_nil e)
  obtain ⟨-, -, h3⟩ := hinv
  intro e he
  rw [← hres] at he
  obtain ⟨hshape, hnotseed⟩ := h3 e he
  refine ⟨?_, hnotseed⟩
  rcases hshape with ⟨kv, hkv, hkve⟩ | hshape
  · rcases seedFold_extra_src env elves ⟨[], [], [], []⟩ kv hkv
      with hsrc | ⟨si, hsi, hloc, hname⟩
    · exact absurd hsrc (List.not_mem_nil _)
    · exact Or.inl ⟨si, hsi, by rw [← hkve]; exact hloc,
        kv.1, by rw [← hkve]; exact hname⟩
  · exact Or.inr hshape

/-- Counterexample environment for C2: one seed executable whose needed
soname resolves through the sibling-alias table of a `bin/` seed. -/
def envAlias : LdEnv :=
  { baseContains := fun _ => false
    buildCache := []
    elf := fun p =>
      if p = ["app", "demo.bin"] then .elfDeps ["demo"] else .elfDeps []
    canonicalize := fun q =>
      if q = ["app", "demo"] ∨ q = ["app", "demo.bin"] then
        some ["app", "demo.bin"]
      else none }

/-- Counterexample for C2: the resolver emits an alias entry whose
archive name is `bin/demo`, not of the form `lib/<soname>`. -/
theorem c2_alias_name_counterexample :
    resolveDeps envAlias [⟨["app", "demo.bin"], "bin/demo.bin"⟩] =
      some (.ok [⟨["app", "demo.bin"], "bin/demo"⟩]) ∧
    ∀ d : String, "bin/demo" ≠ "lib/" ++ d := by
  refine ⟨by decide, ?_⟩
  intro d h
  have h1 : ("bin/demo").data.head? = some 'b' := by decide
  have h2 : (("lib/" ++ d)).data.head? = some 'l' := by
    rw [strData_append]
    rfl
  rw [h, h2] at h1
  exact absurd (Option.some.inj h1) (by decide)

/-- Witness for C2 at the alias counterexample environment: the single
output entry is a recorded alias of the seed and not a seed itself. -/
theorem c2_resolver_output_amended_witness :
    ((∃ s ∈ [(⟨["app", "demo.bin"], "bin/demo.bin"⟩ : FileEntry)],
        (⟨["app", "demo.bin"], "bin/demo"⟩ : FileEntry).location =
            s.location ∧
          ∃ d, (⟨["app", "demo.bin"], "bin/demo"⟩ : FileEntry).name =
            nameParentJoin s.name d) ∨
      ((∃ d, (⟨["app", "demo.bin"], "bin/demo"⟩ : FileEntry).name =
          libJoin d) ∧
        ∀ s ∈ [(⟨["app", "demo.bin"], "bin/demo.bin"⟩ : FileEntry)],
          (⟨["app", "demo.bin"], "bin/demo"⟩ : FileEntry).location ≠
            s.location)) ∧
    (⟨["app", "demo.bin"], "bin/demo"⟩ : FileEntry) ∉
      [(⟨["app", "demo.bin"], "bin/demo.bin"⟩ : FileEntry)] :=
  c2_resolver_output_amended envAlias
    [⟨["app", "demo.bin"], "bin/demo.bin"⟩]
    [⟨["app", "demo.bin"], "bin/demo"⟩]
    (by decide) (by decide) (by decide)
    ⟨["app", "demo.bin"], "bin/demo"⟩ (by decide)

/-! ## Claim C1: closure of the pipeline under dependency reachability -/

theorem pathFileName_last (m : String) (A : List (List Char)) (d : String)
    (hc : comps m = A ++ [d.data]) (hne : d.data ≠ []) (hdot : d.data ≠ ['.'])
    (hdd : d.data ≠ ['.', '.']) :
    pathFileName m = some d := by
  unfold pathFileName
  rw [hc, List.filter_append]
  have h1 : List.filter (fun c => decide (c ≠ [] ∧ c ≠ ['.'])) [d.data] =
      [d.data] := by
    simp [List.filter, hne, hdot]
  rw [h1, List.getLast?_concat]
  show (if d.data = ['.', '.'] then none else some (⟨d.data⟩ : String)) =
    some d
  rw [if_neg hdd]

theorem pathFileName_nameParentJoin (n d : String) (hd : goodSoname d) :
    pathFileName (nameParentJoin n d) = some d := by
  obtain ⟨hne, hdot, hdd, hsl⟩ := hd
  cases hps : (comps n).dropLast with
  | nil =>
    rw [show nameParentJoin n d = d from by unfold nameParentJoin; rw [hps]]
    refine pathFileName_last d [] d ?_ hne hdot hdd
    show splitChar '/' d.data = [] ++ [d.data]
    rw [splitChar_of_no_sep '/' d.data hsl]
    rfl
  | cons p ps =>
    rw [show nameParentJoin n d =
        ⟨joinChar '/' (p :: ps) ++ '/' :: d.data⟩ from by
      unfold nameParentJoin; rw [hps]]
    refine pathFileName_last _ (splitChar '/' (joinChar '/' (p :: ps))) d
      ?_ hne hdot hdd
    show splitChar '/' (joinChar '/' (p :: ps) ++ '/' :: d.data) = _
    rw [splitChar_append, splitChar_of_no_sep '/' d.data hsl]

theorem pathFileName_libJoin (d : String) (hd : goodSoname d) :
    pathFileName (libJoin d) = some d := by
  obtain ⟨hne, hdot, hdd, hsl⟩ := hd
  have hhead : ¬ d.data.head? = some '/' := by
    intro h
    cases hdl : d.data with
    | nil => rw [hdl] at h; exact Option.noConfusion h
    | cons a t =>
      rw [hdl] at h
      have ha : a = '/' := Option.some.inj h
      rw [hdl] at hsl
      exact hsl (by rw [← ha]; exact List.mem_cons_self a t)
  rw [show libJoin d = "lib/" ++ d from by unfold libJoin; rw [if_neg hhead]]
  refine pathFileName_last _ [['l', 'i', 'b']] d ?_ hne hdot hdd
  show splitChar '/' ("lib/" ++ d).data = _
  rw [strData_append]
  show splitChar '/' (['l', 'i', 'b'] ++ '/' :: d.data) = _
  rw [splitChar_append, splitChar_of_no_sep '/' d.data hsl]
  rfl

/-- A soname is *done* in a traversal state: some shipped entry (emitted
or a seed) carries it as archive basename, and the file it resolves to
is queued for scanning. -/
def DepDone (env : LdEnv) (extra : List (String × FileEntry))
    (elves : List FileEntry) (st : TravState) (d : String) : Prop :=
  ((∃ e ∈ st.res, pathFileName e.name = some d) ∨
    (∃ s ∈ elves, pathFileName s.name = some d)) ∧
  (∀ q, followPath env extra d = some q → q ∈ st.queued)

/-- Provenance of a queued path: a seed location, or a build-cache path
whose soname is already carried by an emitted entry. -/
def QSrc (env : LdEnv) (elves : List FileEntry) (st : TravState)
    (q : FsPath) : Prop :=
  (∃ s ∈ elves, q = s.location) ∨
    ∃ f, alFind env.buildCache f = some q ∧
      ∃ e ∈ st.res, pathFileName e.name = some f

/-- State invariant of the traversal loop used for the closure claim. -/
def PreInv (env : LdEnv) (extra : List (String × FileEntry))
    (elves : List FileEntry) (st : TravState) : Prop :=
  (∀ s ∈ elves, s.location ∈ st.queued) ∧
  (∀ p ∈ st.work, p ∈ st.queued) ∧
  (∀ q ∈ st.queued, QSrc env elves st q) ∧
  (∀ x ∈ st.ownLibs, DepDone env extra elves st x)

/-- Full invariant: the state invariant plus every dependency of every
fully processed worklist file being settled. -/
def C1Inv (env : LdEnv) (extra : List (String × FileEntry))
    (elves : List FileEntry) (st : TravState) : Prop :=
  PreInv env extra elves st ∧
  ∀ p ∈ st.queued, p ∉ st.work → ∀ d ∈ elfDepsOf env p,
    env.baseContains d = true ∨ DepDone env extra elves st d

theorem DepDone_mono (env : LdEnv) (extra : List (String × FileEntry))
    (elves : List FileEntry) (st st' : TravState)
    (hq : ∀ q ∈ st.queued, q ∈ st'.queued)
    (hr : ∀ e ∈ st.res, e ∈ st'.res)
    (d : String) (h : DepDone env extra elves st d) :
    DepDone env extra elves st' d := by
  obtain ⟨h1, h2⟩ := h
  refine ⟨?_, fun q hfp => hq q (h2 q hfp)⟩
  rcases h1 with ⟨e, he, hpf⟩ | hs
  · exact Or.inl ⟨e, hr e he, hpf⟩
  · exact Or.inr hs

theorem pd_c1 (env : LdEnv) (extra : List (String × FileEntry))
    (elves : List FileEntry)
    (HE : ∀ kv ∈ extra, goodSoname kv.1 ∧ ∃ s ∈ elves,
      kv.2.location = s.location ∧ kv.2.name = nameParentJoin s.name kv.1)
    (Hinj : ∀ f g p, alFind env.buildCache f = some p →
      alFind env.buildCache g = some p → f = g)
    (Hsep : ∀ f p, alFind env.buildCache f = some p →
      ∀ s ∈ elves, p ≠ s.location)
    (HcacheGood : ∀ f p, alFind env.buildCache f = some p → goodSoname f)
    (st : TravState) (d : String) (st' : TravState)
    (h : processDep env extra st d = .ok st')
    (hpre : PreInv env extra elves st) :
    PreInv env extra elves st' ∧
      (∀ q ∈ st.queued, q ∈ st'.queued) ∧
      (∀ e ∈ st.res, e ∈ st'.res) ∧
      (∀ p ∈ st.work, p ∈ st'.work) ∧
      (∀ q ∈ st'.queued, q ∈ st.queued ∨ q ∈ st'.work) ∧
      (env.baseContains d = true ∨ DepDone env extra elves st' d) := by
  obtain ⟨h1, h2, h3, h4⟩ := hpre
  unfold processDep at h
  split at h
  · rename_i hc
    cases Except.ok.inj h
    refine ⟨⟨h1, h2, h3, h4⟩, fun q hq => hq, fun e he => he, fun p hp => hp,
      fun q hq => Or.inl hq, ?_⟩
    rcases hc with hc | hc
    · exact Or.inl hc
    · exact Or.inr (h4 d hc)
  · rename_i hb
    push_neg at hb
    split at h
    · rename_i e hx
      cases Except.ok.inj h
      obtain ⟨hgs, s, hs, hloc, hname⟩ := HE (d, e) (alFind_mem extra d e hx)
      have hdd : DepDone env extra elves
          { st with res := st.res ++ [e], ownLibs := d :: st.ownLibs } d := by
        constructor
        · refine Or.inl ⟨e, List.mem_append_right _ (List.mem_singleton_self e), ?_⟩
          rw [hname]
          exact pathFileName_nameParentJoin s.name d hgs
        · intro q hfp
          unfold followPath at hfp
          rw [hx] at hfp
          have hfp2 : some e.location = some q := hfp
          rw [← Option.some.inj hfp2, hloc]
          exact h1 s hs
      refine ⟨⟨h1, h2, ?_, ?_⟩, fun q hq => hq,
        fun e' he' => List.mem_append_left _ he', fun p hp => hp,
        fun q hq => Or.inl hq, Or.inr hdd⟩
      · intro q hq
        rcases h3 q hq with hql | ⟨f, hf, e', he', hpf⟩
        · exact Or.inl hql
        · exact Or.inr ⟨f, hf, e', List.mem_append_left _ he', hpf⟩
      · intro x hxm
        rcases List.mem_cons.mp hxm with hxe | hxm
        · rw [hxe]
          exact hdd
        · exact DepDone_mono env extra elves st
            { st with res := st.res ++ [e], ownLibs := d :: st.ownLibs }
            (fun q hq => hq)
            (fun e' he' => List.mem_append_left _ he') x (h4 x hxm)
    · rename_i hx
      split at h
      · rename_i p hp
        split at h
        · rename_i hq
          cases Except.ok.inj h
          refine ⟨⟨h1, h2, h3, h4⟩, fun q hq' => hq', fun e he => he,
            fun w hw => hw, fun q hq' => Or.inl hq', Or.inr ?_⟩
          constructor
          · rcases h3 p hq with ⟨s, hs, hps⟩ | ⟨f, hf, e, he, hpf⟩
            · exact absurd hps (Hsep d p hp s hs)
            · have hfd : f = d := Hinj f d p hf hp
              rw [hfd] at hpf
              exact Or.inl ⟨e, he, hpf⟩
          · intro q hfp
            unfold followPath at hfp
            rw [hx] at hfp
            have hfp2 : alFind env.buildCache d = some q := hfp
            rw [hp] at hfp2
            rw [← Option.some.inj hfp2]
            exact hq
        · rename_i hq
          cases Except.ok.inj h
          have hgd : goodSoname d := HcacheGood d p hp
          have hpfl : pathFileName (libJoin d) = some d :=
            pathFileName_libJoin d hgd
          have hdd : DepDone env extra elves
              ⟨p :: st.work, p :: st.queued, st.ownLibs,
                st.res ++ [⟨p, libJoin d⟩]⟩ d := by
            constructor
            · exact Or.inl ⟨⟨p, libJoin d⟩,
                List.mem_append_right _ (List.mem_singleton_self _), hpfl⟩
            · intro q hfp
              unfold followPath at hfp
              rw [hx] at hfp
              have hfp2 : alFind env.buildCache d = some q := hfp
              rw [hp] at hfp2
              rw [← Option.some.inj hfp2]
              exact List.mem_cons_self p st.queued
          refine ⟨⟨?_, ?_, ?_, ?_⟩, fun q hq' => List.mem_cons_of_mem _ hq',
            fun e he => List.mem_append_left _ he,
            fun w hw => List.mem_cons_of_mem _ hw, ?_, Or.inr hdd⟩
          · exact fun s hs => List.mem_cons_of_mem _ (h1 s hs)
          · intro w hw
            rcases List.mem_cons.mp hw with hwp | hw
            · rw [hwp]
              exact List.mem_cons_self _ _
            · exact List.mem_cons_of_mem _ (h2 w hw)
          · intro q hq'
            rcases List.mem_cons.mp hq' with hqp | hq'
            · refine Or.inr ⟨d, ?_, ⟨p, libJoin d⟩,
                List.mem_append_right _ (List.mem_singleton_self _), hpfl⟩
              rw [hqp]
              exact hp
            · rcases h3 q hq' with hl | ⟨f, hf, e, he, hpf2⟩
              · exact Or.inl hl
              · exact Or.inr ⟨f, hf, e, List.mem_append_left _ he, hpf2⟩
          · intro x hxm
            exact DepDone_mono env extra elves st _
              (fun q hq' => List.mem_cons_of_mem _ hq')
              (fun e he => List.mem_append_left _ he) x (h4 x hxm)
          · intro q hq'
            rcases List.mem_cons.mp hq' with hqp | hq'
            · refine Or.inr ?_
              rw [hqp]
              exact List.mem_cons_self _ _
            · exact Or.inl hq'
      · exact Except.noConfusion h

theorem foldPD_c1 (env : LdEnv) (extra : List (String × FileEntry))
    (elves : List FileEntry)
    (HE : ∀ kv ∈ extra, goodSoname kv.1 ∧ ∃ s ∈ elves,
      kv.2.location = s.location ∧ kv.2.name = nameParentJoin s.name kv.1)
    (Hinj : ∀ f g p, alFind env.buildCache f = some p →
      alFind env.buildCache g = some p → f = g)
    (Hsep : ∀ f p, alFind env.buildCache f = some p →
      ∀ s ∈ elves, p ≠ s.location)
    (HcacheGood : ∀ f p, alFind env.buildCache f = some p → goodSoname f) :
    ∀ (deps : List String) (st st2 : TravState),
      deps.foldlM (processDep env extra) st = .ok st2 →
      PreInv env extra elves st →
      PreInv env extra elves st2 ∧
        (∀ q ∈ st.queued, q ∈ st2.queued) ∧
        (∀ e ∈ st.res, e ∈ st2.res) ∧
        (∀ p ∈ st.work, p ∈ st2.work) ∧
        (∀ q ∈ st2.queued, q ∈ st.queued ∨ q ∈ st2.work) ∧
        (∀ d ∈ deps, env.baseContains d = true ∨
          DepDone env extra elves st2 d) := by
  intro deps
  induction deps with
  | nil =>
    intro st st2 h hpre
    cases Except.ok.inj h
    exact ⟨hpre, fun q hq => hq, fun e he => he, fun p hp => hp,
      fun q hq => Or.inl hq, fun d hd => absurd hd (List.not_mem_nil d)⟩
  | cons d ds ih =>
    intro st st2 h hpre
    rw [List.foldlM_cons] at h
    cases hstep : processDep env extra st d with
    | error e =>
      rw [hstep] at h
      exact Except.noConfusion h
    | ok st1 =>
      rw [hstep] at h
      have h' : ds.foldlM (processDep env extra) st1 = .ok st2 := h
      obtain ⟨hp1, hq1, hr1, hw1, hn1, hd1⟩ :=
        pd_c1 env extra elves HE Hinj Hsep HcacheGood st d st1 hstep hpre
      obtain ⟨hp2, hq2, hr2, hw2, hn2, hd2⟩ := ih st1 st2 h' hp1
      refine ⟨hp2, fun q hq => hq2 q (hq1 q hq), fun e he => hr2 e (hr1 e he),
        fun p hp => hw2 p (hw1 p hp), ?_, ?_⟩
      · intro q hq
        rcases hn2 q hq with hq' | hq'
        · rcases hn1 q hq' with h'' | h''
          · exact Or.inl h''
          · exact Or.inr (hw2 q h'')
        · exact Or.inr hq'
      · intro x hx
        rcases List.mem_cons.mp hx with hxd | hx
        · rcases hd1 with hb | hdd
          · rw [hxd]
            exact Or.inl hb
          · rw [hxd]
            exact Or.inr (DepDone_mono env extra elves st1 st2 hq2 hr2 d hdd)
        · exact hd2 x hx

theorem runLoop_c1 (env : LdEnv) (extra : List (String × FileEntry))
    (elves : List FileEntry)
    (HE : ∀ kv ∈ extra, goodSoname kv.1 ∧ ∃ s ∈ elves,
      kv.2.location = s.location ∧ kv.2.name = nameParentJoin s.name kv.1)
    (Hinj : ∀ f g p, alFind env.buildCache f = some p →
      alFind env.buildCache g = some p → f = g)
    (Hsep : ∀ f p, alFind env.buildCache f = some p →
      ∀ s ∈ elves, p ≠ s.location)
    (HcacheGood : ∀ f p, alFind env.buildCache f = some p → goodSoname f) :
    ∀ (fuel : Nat) (st stF : TravState),
      runLoop env extra fuel st = some (.ok stF) →
      C1Inv env extra elves st → C1Inv env extra elves stF := by
  intro fuel
  induction fuel with
  | zero => intro st stF h _; simp [runLoop] at h
  | succ n ih =>
    intro st stF h hinv
    obtain ⟨⟨h1, h2, h3, h4⟩, hproc⟩ := hinv
    rw [runLoop] at h
    split at h
    · rename_i hw
      simp only [Option.some_inj, Except.ok.injEq] at h
      exact h ▸ ⟨⟨h1, h2, h3, h4⟩, hproc⟩
    · rename_i p rest hw
      split at h
      · rename_i deps helf
        split at h
        · rename_i st2 hfold
          refine ih st2 stF h ?_
          have hpre1 : PreInv env extra elves { st with work := rest } :=
            ⟨h1, fun w hwm => h2 w (by rw [hw]; exact List.mem_cons_of_mem p hwm),
              h3, h4⟩
          obtain ⟨hp2, hq2, hr2, hw2, hn2, hd2⟩ :=
            foldPD_c1 env extra elves HE Hinj Hsep HcacheGood deps
              { st with work := rest } st2 hfold hpre1
          refine ⟨hp2, ?_⟩
          intro q hq hnw d hd
          rcases hn2 q hq with hq1 | hq1
          · by_cases hqw : q ∈ st.work
            · rw [hw] at hqw
              rcases List.mem_cons.mp hqw with heqp | hqr
              · have hdeps : elfDepsOf env q = deps := by
                  unfold elfDepsOf; rw [heqp, helf]
                rw [hdeps] at hd
                exact hd2 d hd
              · exact absurd (hw2 q hqr) hnw
            · rcases hproc q hq1 hqw d hd with hb | hdd
              · exact Or.inl hb
              · exact Or.inr (DepDone_mono env extra elves
                  { st with work := rest } st2 hq2 hr2 d hdd)
          · exact absurd hq1 hnw
        · simp at h
      · rename_i helf
        refine ih _ stF h ?_
        refine ⟨⟨h1, fun w hwm => h2 w (by rw [hw]; exact List.mem_cons_of_mem p hwm),
          h3, h4⟩, ?_⟩
        intro q hq hnw d hd
        by_cases hqw : q ∈ st.work
        · rw [hw] at hqw
          rcases List.mem_cons.mp hqw with heqp | hqr
          · have hdeps : elfDepsOf env q = [] := by
              unfold elfDepsOf; rw [heqp, helf]
            rw [hdeps] at hd
            exact absurd hd (List.not_mem_nil d)
          · exact absurd hqr hnw
        · exact hproc q hq hqw d hd
      · rename_i msg helf
        simp at h

theorem c1Inv_init (env : LdEnv) (elves : List FileEntry)
    (HE : ∀ kv ∈ (seedPhase env elves).ownExtra,
      goodSoname kv.1 ∧ ∃ s ∈ elves,
        kv.2.location = s.location ∧ kv.2.name = nameParentJoin s.name kv.1)
    (Hcover : ∀ s ∈ elves, ∀ f, pathFileName s.name = some f →
      alFind env.buildCache f = none) :
    C1Inv env (seedPhase env elves).ownExtra elves
      ⟨(seedPhase env elves).work, (seedPhase env elves).queued,
        (seedPhase env elves).ownLibs, []⟩ := by
  constructor
  · refine ⟨?_, ?_, ?_, ?_⟩
    · intro s hs
      exact seedFold_seeds_queued env elves ⟨[], [], [], []⟩ s hs
    · intro w hwm
      exact (seedFold_work_iff env elves ⟨[], [], [], []⟩
        (fun p => Iff.rfl) w).mp hwm
    · intro q hq
      rcases seedFold_queued_src env elves ⟨[], [], [], []⟩ q hq with
        hnil | ⟨s, hs, hqs⟩
      · exact absurd hnil (List.not_mem_nil q)
      · exact Or.inl ⟨s, hs, hqs⟩
    · intro x hx
      rcases seedFold_ownLibs_src env elves ⟨[], [], [], []⟩ x hx with
        hnil | ⟨s, hs, hpf⟩
      · exact absurd hnil (List.not_mem_nil x)
      · constructor
        · exact Or.inr ⟨s, hs, hpf⟩
        · intro q hfp
          unfold followPath at hfp
          cases hax : alFind (seedPhase env elves).ownExtra x with
          | some e =>
            rw [hax] at hfp
            have hfp2 : some e.location = some q := hfp
            obtain ⟨hgs, t, ht, hloc, hname⟩ := HE (x, e) (alFind_mem _ x e hax)
            rw [← Option.some.inj hfp2, hloc]
            exact seedFold_seeds_queued env elves ⟨[], [], [], []⟩ t ht
          | none =>
            rw [hax] at hfp
            have hfp2 : alFind env.buildCache x = some q := hfp
            rw [Hcover s hs x hpf] at hfp2
            exact Option.noConfusion hfp2
  · intro p hp hnw d _
    exact absurd ((seedFold_work_iff env elves ⟨[], [], [], []⟩
      (fun p => Iff.rfl) p).mpr hp) hnw

theorem reach_depDone (env : LdEnv) (extra : List (String × FileEntry))
    (elves : List FileEntry) (stF : TravState)
    (hinv : C1Inv env extra elves stF) (hwork : stF.work = []) :
    ∀ (p : FsPath) (d : String), p ∈ stF.queued →
      Reach env extra p d →
      env.baseContains d = true ∨ DepDone env extra elves stF d := by
  intro p d hp hr
  induction hr with
  | head hd =>
    exact hinv.2 _ hp (by rw [hwork]; exact List.not_mem_nil _) _ hd
  | step hr2 hb2 hf2 hd2 ih =>
    rename_i dmid q
    rcases ih with hb | hdd
    · rw [hb2] at hb
      exact Bool.noConfusion hb
    · have hq := hdd.2 q hf2
      exact hinv.2 q hq (by rw [hwork]; exact List.not_mem_nil _) _ hd2

/-- Claim C1, amended: under a well-formed environment — build-cache
sonames are well formed and map injectively to paths, cache paths are
disjoint from seed locations, seed archive basenames are absent from the
build cache, and alias sonames are well formed — every soname reachable
from a seed is either provided by the baseline cache, carried as the
archive basename of an inserted entry, or is the archive basename of an
extra ELF seed (which `build_phase` scans but never inserts). -/
theorem c1_closure_property_amended :
    ∀ (env : LdEnv) (execs libs ress extras inserted : List FileEntry),
      (∀ kv ∈ (seedPhase env (execs ++ extras ++ libs)).ownExtra,
        goodSoname kv.1) →
      (∀ f g p, alFind env.buildCache f = some p →
        alFind env.buildCache g = some p → f = g) →
      (∀ f p, alFind env.buildCache f = some p →
        ∀ s ∈ execs ++ extras ++ libs, p ≠ s.location) →
      (∀ f p, alFind env.buildCache f = some p → goodSoname f) →
      (∀ s ∈ execs ++ extras ++ libs, ∀ f, pathFileName s.name = some f →
        alFind env.buildCache f = none) →
      buildPhaseInsert env execs libs ress extras = some (.ok inserted) →
      ∀ s ∈ execs ++ extras ++ libs, ∀ d,
        Reach env (seedPhase env (execs ++ extras ++ libs)).ownExtra
          s.location d →
        env.baseContains d = true ∨
          (∃ e ∈ inserted, pathFileName e.name = some d) ∨
          (∃ x ∈ extras, pathFileName x.name = some d) := by
  intro env execs libs ress extras inserted Halias Hinj Hsep Hcache Hcover hbp
    s hs d hreach
  have hex : ∃ deps, resolveDeps env (execs ++ extras ++ libs) =
      some (.ok deps) ∧ inserted = execs ++ libs ++ ress ++ deps := by
    unfold buildPhaseInsert at hbp
    cases hr : resolveDeps env (execs ++ extras ++ libs) with
    | none => rw [hr] at hbp; exact Option.noConfusion hbp
    | some r =>
      rw [hr] at hbp
      cases r with
      | ok deps =>
        have hh : Except.ok (ε := LdErr) (execs ++ libs ++ ress ++ deps) =
            Except.ok inserted := Option.some.inj hbp
        exact ⟨deps, rfl, (Except.ok.inj hh).symm⟩
      | error e =>
        exact Except.noConfusion
          (show Except.error (α := List FileEntry) e = Except.ok inserted from
            Option.some.inj hbp)
  obtain ⟨deps, hrd, hins⟩ := hex
  obtain ⟨stF, hfull, hres⟩ :=
    resolveDeps_ok_full env (execs ++ extras ++ libs) deps hrd
  have HE : ∀ kv ∈ (seedPhase env (execs ++ extras ++ libs)).ownExtra,
      goodSoname kv.1 ∧ ∃ t ∈ execs ++ extras ++ libs,
        kv.2.location = t.location ∧ kv.2.name = nameParentJoin t.name kv.1 := by
    intro kv hkv
    refine ⟨Halias kv hkv, ?_⟩
    rcases seedFold_extra_src env _ ⟨[], [], [], []⟩ kv hkv with hnil | hsrc
    · exact absurd hnil (List.not_mem_nil kv)
    · exact hsrc
  have hinit := c1Inv_init env (execs ++ extras ++ libs) HE Hcover
  unfold resolveDepsFull at hfull
  have hinv := runLoop_c1 env
    (seedPhase env (execs ++ extras ++ libs)).ownExtra
    (execs ++ extras ++ libs) HE Hinj Hsep Hcache _ _ _ hfull hinit
  have hwork : stF.work = [] := runLoop_final_work env _ _ _ _ hfull
  have key := reach_depDone env
    (seedPhase env (execs ++ extras ++ libs)).ownExtra
    (execs ++ extras ++ libs) stF hinv hwork s.location d
    (hinv.1.1 s hs) hreach
  rcases key with hb | hdd
  · exact Or.inl hb
  · rcases hdd.1 with ⟨e, he, hpf⟩ | ⟨t, ht, hpf⟩
    · refine Or.inr (Or.inl ⟨e, ?_, hpf⟩)
      rw [hins]
      exact List.mem_append_right _ (hres ▸ he)
    · rcases List.mem_append.mp ht with ht1 | htl
      · rcases List.mem_append.mp ht1 with hte | htx
        · refine Or.inr (Or.inl ⟨t, ?_, hpf⟩)
          rw [hins]
          exact List.mem_append_left _
            (List.mem_append_left _ (List.mem_append_left _ hte))
        · exact Or.inr (Or.inr ⟨t, htx, hpf⟩)
      · refine Or.inr (Or.inl ⟨t, ?_, hpf⟩)
        rw [hins]
        exact List.mem_append_left _
          (List.mem_append_left _ (List.mem_append_right _ htl))

/-- Extra-ELF seed whose soname is demanded by another seed. -/
def eaA : FileEntry := ⟨["a"], "_unused/liba.so"⟩

/-- The extra-ELF seed that provides the demanded soname on disk. -/
def ebA : FileEntry := ⟨["b"], "_unused/libb.so"⟩

/-- Counterexample environment for C1: no baseline coverage, no build
cache; the first extra ELF file needs the second one's soname. -/
def envExtraElf : LdEnv :=
  { baseContains := fun _ => false
    buildCache := []
    elf := fun p => if p = ["a"] then .elfDeps ["libb.so"] else .elfDeps []
    canonicalize := fun _ => none }

/-- Counterexample for C1: `build_phase` succeeds with an empty insertion
set although the soname `libb.so` is reachable from a seed and absent
from the baseline cache — extra ELF files satisfy dependencies during
resolution but are never inserted into the archive. -/
theorem c1_closure_counterexample :
    buildPhaseInsert envExtraElf [] [] [] [eaA, ebA] = some (.ok []) ∧
    eaA ∈ ([] ++ [eaA, ebA] ++ [] : List FileEntry) ∧
    Reach envExtraElf
      (seedPhase envExtraElf ([] ++ [eaA, ebA] ++ [])).ownExtra
      eaA.location "libb.so" ∧
    envExtraElf.baseContains "libb.so" = false ∧
    ¬ ∃ e ∈ ([] : List FileEntry), pathFileName e.name = some "libb.so" := by
  refine ⟨by decide, by decide, ?_, rfl, ?_⟩
  · exact Reach.head (by decide)
  · rintro ⟨e, he, -⟩
    exact List.not_mem_nil e he

/-- One-executable environment in which every C1 hypothesis holds: the
executable needs `libc.so.6`, which the baseline cache provides. -/
def envWitC1 : LdEnv :=
  { baseContains := fun _ => true
    buildCache := []
    elf := fun _ => .elfDeps ["libc.so.6"]
    canonicalize := fun _ => none }

/-- Witness for the amended C1 at a concrete one-executable bundle and
the reachable soname `libc.so.6`. -/
theorem c1_closure_property_amended_witness :
    envWitC1.baseContains "libc.so.6" = true ∨
      (∃ e ∈ [(⟨["x"], "bin/x"⟩ : FileEntry)],
        pathFileName e.name = some "libc.so.6") ∨
      (∃ x ∈ ([] : List FileEntry),
        pathFileName x.name = some "libc.so.6") :=
  c1_closure_property_amended envWitC1 [⟨["x"], "bin/x"⟩] [] [] []
    [⟨["x"], "bin/x"⟩]
    (fun kv hkv => absurd hkv (List.not_mem_nil kv))
    (fun f g p h _ => Option.noConfusion h)
    (fun f p h => Option.noConfusion h)
    (fun f p h => Option.noConfusion h)
    (fun s hs f hf => rfl)
    (by decide)
    ⟨["x"], "bin/x"⟩ (by decide)
    "libc.so.6" (Reach.head (by decide))

/-! ## Claim C5: shape of the archive-writer emission -/

theorem joinChar_append_ne (c : Char) :
    ∀ (A B : List (List Char)), A ≠ [] → B ≠ [] →
      joinChar c (A ++ B) = joinChar c A ++ c :: joinChar c B := by
  intro A
  induction A with
  | nil => intro B h _; exact absurd rfl h
  | cons x t ih =>
    intro B _ hB
    cases t with
    | nil =>
      cases B with
      | nil => exact absurd rfl hB
      | cons y B2 =>
        show joinChar c (x :: y :: B2) =
          joinChar c [x] ++ c :: joinChar c (y :: B2)
        rfl
    | cons y t2 =>
      show joinChar c (x :: ((y :: t2) ++ B)) =
        joinChar c (x :: y :: t2) ++ c :: joinChar c B
      rw [show joinChar c (x :: ((y :: t2) ++ B)) =
        x ++ c :: joinChar c ((y :: t2) ++ B) from rfl]
      rw [ih B (by simp) hB]
      rw [show joinChar c (x :: y :: t2) =
        x ++ c :: joinChar c (y :: t2) from rfl]
      simp [List.append_assoc]

theorem splitChar_joinChar_free (c : Char) :
    ∀ (cs : List (List Char)), cs ≠ [] → (∀ x ∈ cs, c ∉ x) →
      splitChar c (joinChar c cs) = cs := by
  intro cs
  induction cs with
  | nil => intro h _; exact absurd rfl h
  | cons x t ih =>
    intro _ hfree
    cases t with
    | nil =>
      show splitChar c (joinChar c [x]) = [x]
      rw [show joinChar c [x] = x from rfl]
      exact splitChar_of_no_sep c x (hfree x (List.mem_cons_self x []))
    | cons y t2 =>
      show splitChar c (joinChar c (x :: y :: t2)) = x :: y :: t2
      rw [show joinChar c (x :: y :: t2) =
        x ++ c :: joinChar c (y :: t2) from rfl]
      rw [splitChar_append]
      rw [splitChar_of_no_sep c x (hfree x (List.mem_cons_self _ _))]
      rw [ih (by simp) (fun z hz => hfree z (List.mem_cons_of_mem x hz))]
      rfl

theorem comps_joinComps (cs : List (List Char)) (h : cs ≠ [])
    (hf : ∀ x ∈ cs, '/' ∉ x) : comps (joinComps cs) = cs := by
  show splitChar '/' (joinChar '/' cs) = cs
  exact splitChar_joinChar_free '/' cs h hf

theorem joinComps_comps (d : String) : joinComps (comps d) = d := by
  show (⟨joinChar '/' (splitChar '/' d.data)⟩ : String) = d
  rw [joinChar_splitChar]

theorem comps_ne_nil (n : String) : comps n ≠ [] :=
  splitChar_ne_nil '/' n.data

theorem comps_no_sep (n : String) : ∀ x ∈ comps n, '/' ∉ x :=
  fun x hx => splitChar_no_sep '/' n.data x hx

theorem take_ne_nil {α : Type} :
    ∀ (l : List α) (i : Nat), 1 ≤ i → l ≠ [] → l.take i ≠ [] := by
  intro l i hi hl
  cases l with
  | nil => exact absurd rfl hl
  | cons a t =>
    cases i with
    | zero => omega
    | succ j => simp [List.take]

theorem ancChain_length (n : String) :
    (ancChain n).length = (comps n).length := by
  unfold ancChain
  rw [List.length_map, List.length_range]

theorem ancChain_get? (n : String) (i : Nat) (h : i < (comps n).length) :
    (ancChain n).get? i = some (joinComps ((comps n).take i)) := by
  unfold ancChain
  rw [List.get?_map, List.get?_range h]
  rfl

theorem get?_some_lt {α : Type} (l : List α) (i : Nat) (a : α)
    (h : l.get? i = some a) : i < l.length := by
  by_contra hge
  rw [List.get?_eq_none.mpr (Nat.le_of_not_lt hge)] at h
  exact Option.noConfusion h

theorem stepDirs_mem (old nw : List String) (d : String) :
    d ∈ stepDirs old nw ↔ ∃ i, 1 ≤ i ∧ nw.get? i = some d ∧
      ¬ old.get? i = some d := by
  unfold stepDirs
  rw [List.mem_filterMap]
  constructor
  · rintro ⟨i, hi, hf⟩
    rw [List.mem_range'_1] at hi
    cases hg : nw.get? i with
    | none =>
      rw [hg] at hf
      exact Option.noConfusion hf
    | some d0 =>
      rw [hg] at hf
      have hf2 : (if old.get? i = some d0 then none else some d0) =
          some d := hf
      by_cases ho : old.get? i = some d0
      · rw [if_pos ho] at hf2
        exact Option.noConfusion hf2
      · rw [if_neg ho] at hf2
        have hd0 : d0 = d := Option.some.inj hf2
        subst hd0
        exact ⟨i, hi.1, hg, ho⟩
  · rintro ⟨i, h1, hg, ho⟩
    have hlt : i < nw.length := get?_some_lt nw i d hg
    refine ⟨i, ?_, ?_⟩
    · rw [List.mem_range'_1]
      omega
    · rw [hg]
      show (if old.get? i = some d then none else some d) = some d
      rw [if_neg ho]

theorem lexLt_interval :
    ∀ (pfx x y z : List Char),
      (lexLt x y = true ∨ x = y) → (lexLt y z = true ∨ y = z) →
      pfx <+: x → pfx <+: z → pfx <+: y := by
  intro pfx
  induction pfx with
  | nil => intro x y z _ _ _ _; exact List.nil_prefix
  | cons c pfx ih =>
    intro x y z hxy hyz hpx hpz
    obtain ⟨xr, hx⟩ := hpx
    obtain ⟨zr, hz⟩ := hpz
    subst hx
    subst hz
    cases y with
    | nil =>
      rcases hxy with hlt | heq
      · exact Bool.noConfusion (show false = true from hlt)
      · exact List.noConfusion (show c :: (pfx ++ xr) = [] from heq)
    | cons e yr =>
      have hce : c = e := by
        rcases hxy with hlt | heq
        · by_cases h1 : c < e
          · rcases hyz with hlt2 | heq2
            · have hf : lexLt (e :: yr) ((c :: pfx) ++ zr) = false := by
                show (if e < c then true
                  else if c < e then false
                  else lexLt yr (pfx ++ zr)) = false
                rw [if_neg (lt_asymm h1), if_pos h1]
              rw [hlt2] at hf
              exact Bool.noConfusion hf
            · have heq2' : e :: yr = c :: (pfx ++ zr) := heq2
              have hec : e = c := (List.cons.inj heq2').1
              rw [hec] at h1
              exact absurd h1 (lt_irrefl c)
          · by_cases h2 : e < c
            · have hf : lexLt ((c :: pfx) ++ xr) (e :: yr) = false := by
                show (if c < e then true
                  else if e < c then false
                  else lexLt (pfx ++ xr) yr) = false
                rw [if_neg h1, if_pos h2]
              rw [hlt] at hf
              exact Bool.noConfusion hf
            · rcases lt_trichotomy c e with h | h | h
              · exact absurd h h1
              · exact h
              · exact absurd h h2
        · have heq' : c :: (pfx ++ xr) = e :: yr := heq
          exact (List.cons.inj heq').1
      subst hce
      have hxy' : lexLt (pfx ++ xr) yr = true ∨ pfx ++ xr = yr := by
        rcases hxy with hlt | heq
        · left
          have hred : lexLt ((c :: pfx) ++ xr) (c :: yr) =
              lexLt (pfx ++ xr) yr := by
            show (if c < c then true else if c < c then false
              else lexLt (pfx ++ xr) yr) = lexLt (pfx ++ xr) yr
            rw [if_neg (lt_irrefl c), if_neg (lt_irrefl c)]
          rw [hred] at hlt
          exact hlt
        · right
          have heq' : c :: (pfx ++ xr) = c :: yr := heq
          exact (List.cons.inj heq').2
      have hyz' : lexLt yr (pfx ++ zr) = true ∨ yr = pfx ++ zr := by
        rcases hyz with hlt | heq
        · left
          have hred : lexLt (c :: yr) ((c :: pfx) ++ zr) =
              lexLt yr (pfx ++ zr) := by
            show (if c < c then true else if c < c then false
              else lexLt yr (pfx ++ zr)) = lexLt yr (pfx ++ zr)
            rw [if_neg (lt_irrefl c), if_neg (lt_irrefl c)]
          rw [hred] at hlt
          exact hlt
        · right
          have heq' : c :: yr = c :: (pfx ++ zr) := heq
          exact (List.cons.inj heq').2
      obtain ⟨t, ht⟩ := ih (pfx ++ xr) yr (pfx ++ zr) hxy' hyz'
        ⟨xr, rfl⟩ ⟨zr, rfl⟩
      exact ⟨t, by rw [List.cons_append, ht]⟩

theorem anc_prefix (n : String) (i : Nat) (h1 : 1 ≤ i)
    (h2 : i < (comps n).length) :
    (joinComps ((comps n).take i)).data ++ ['/'] <+: n.data := by
  have hsplit : comps n = (comps n).take i ++ (comps n).drop i :=
    (List.take_append_drop i (comps n)).symm
  have htn : (comps n).take i ≠ [] :=
    take_ne_nil (comps n) i h1 (comps_ne_nil n)
  have hdn : (comps n).drop i ≠ [] := by
    intro h
    have hle := List.drop_eq_nil_iff_le.mp h
    omega
  have hjoin : joinChar '/' (comps n) =
      joinChar '/' ((comps n).take i) ++
        '/' :: joinChar '/' ((comps n).drop i) := by
    conv_lhs => rw [hsplit]
    exact joinChar_append_ne '/' _ _ htn hdn
  have hn : n.data = joinChar '/' (comps n) :=
    (joinChar_splitChar '/' n.data).symm
  refine ⟨joinChar '/' ((comps n).drop i), ?_⟩
  rw [hn, hjoin]
  rw [List.append_assoc]
  rfl

theorem prefix_slash_anc (d n : String)
    (h : d.data ++ ['/'] <+: n.data) :
    (comps n).take (comps d).length = comps d ∧
      (comps d).length < (comps n).length := by
  obtain ⟨rest, hrest⟩ := h
  have hvn : comps n = comps d ++ splitChar '/' rest := by
    show splitChar '/' n.data = _
    rw [← hrest]
    rw [List.append_assoc]
    show splitChar '/' (d.data ++ '/' :: rest) = _
    rw [splitChar_append]
    rfl
  constructor
  · rw [hvn]
    exact List.take_left _ _
  · rw [hvn, List.length_append]
    have hpos : 0 < (splitChar '/' rest).length :=
      List.length_pos.mpr (splitChar_ne_nil '/' rest)
    omega

theorem anc_index (n : String) (i : Nat) (h1 : 1 ≤ i)
    (h2 : i < (comps n).length) :
    comps (joinComps ((comps n).take i)) = (comps n).take i ∧
      (comps (joinComps ((comps n).take i))).length = i := by
  have hne : (comps n).take i ≠ [] := take_ne_nil _ i h1 (comps_ne_nil n)
  have hfree : ∀ x ∈ (comps n).take i, '/' ∉ x :=
    fun x hx => comps_no_sep n x (List.mem_of_mem_take hx)
  have hcj := comps_joinComps _ hne hfree
  refine ⟨hcj, ?_⟩
  rw [hcj, List.length_take]
  exact min_eq_left (le_of_lt h2)

/-- Archive name of a directory entry. -/
def dirNameOf : ZEntry → Option String
  | .dir n => some n
  | .file _ _ _ => none

/-- Archive name of a file entry. -/
def fileNameOf : ZEntry → Option String
  | .dir _ => none
  | .file n _ _ => some n

/-- Archive name of any writer entry. -/
def znameOf : ZEntry → String
  | .dir n => n
  | .file n _ _ => n

theorem dirNames_map_dir (ds : List String) :
    (ds.map ZEntry.dir).filterMap dirNameOf = ds := by
  induction ds with
  | nil => rfl
  | cons a t ih => simp [List.filterMap_cons, dirNameOf, ih]

theorem fileNames_map_dir (ds : List String) :
    (ds.map ZEntry.dir).filterMap fileNameOf = [] := by
  induction ds with
  | nil => rfl
  | cons a t ih => simp [List.filterMap_cons, fileNameOf, ih]

theorem mem_dirNames (tr : List ZEntry) (d : String) :
    d ∈ tr.filterMap dirNameOf ↔ ZEntry.dir d ∈ tr := by
  rw [List.mem_filterMap]
  constructor
  · rintro ⟨z, hz, hdz⟩
    cases z with
    | dir n =>
      have hnd : n = d := Option.some.inj hdz
      rw [← hnd]
      exact hz
    | file n l mode => exact Option.noConfusion hdz
  · intro h
    exact ⟨ZEntry.dir d, h, rfl⟩

theorem filterMap_dir_file_cons (n : String) (l : FsPath) (mode : Nat)
    (tr : List ZEntry) :
    (ZEntry.file n l mode :: tr).filterMap dirNameOf =
      tr.filterMap dirNameOf := rfl

theorem filterMap_file_file_cons (n : String) (l : FsPath) (mode : Nat)
    (tr : List ZEntry) :
    (ZEntry.file n l mode :: tr).filterMap fileNameOf =
      n :: tr.filterMap fileNameOf := rfl

theorem emitEntries_cons_none (meta : FsPath → Option Nat) (n : String)
    (l : FsPath) (rest : List (String × FsPath)) (last : Option String)
    (hm : meta l = none) :
    emitEntries meta ((n, l) :: rest) last =
      ((stepDirs (oldChain last) (ancChain n)).map ZEntry.dir,
        some (.ioErr n)) := by
  simp only [emitEntries, hm]

theorem emitEntries_cons_some (meta : FsPath → Option Nat) (n : String)
    (l : FsPath) (rest : List (String × FsPath)) (last : Option String)
    (mode : Nat) (hm : meta l = some mode) :
    emitEntries meta ((n, l) :: rest) last =
      ((stepDirs (oldChain last) (ancChain n)).map ZEntry.dir ++
        ZEntry.file n l mode :: (emitEntries meta rest (some n)).1,
        (emitEntries meta rest (some n)).2) := by
  simp only [emitEntries, hm]

theorem stepDirs_fun_eq (old nw : List String) (i : Nat) (d : String)
    (h : (match nw.get? i with
      | some d0 => if old.get? i = some d0 then none else some d0
      | none => none) = some d) :
    nw.get? i = some d ∧ ¬ old.get? i = some d := by
  cases hg : nw.get? i with
  | none =>
    rw [hg] at h
    exact Option.noConfusion h
  | some d0 =>
    rw [hg] at h
    have h2 : (if old.get? i = some d0 then none else some d0) = some d := h
    by_cases ho : old.get? i = some d0
    · rw [if_pos ho] at h2
      exact Option.noConfusion h2
    · rw [if_neg ho] at h2
      have hd : d0 = d := Option.some.inj h2
      subst hd
      exact ⟨rfl, ho⟩

theorem stepDirs_anc (old : List String) (n : String) (d : String)
    (h : d ∈ stepDirs old (ancChain n)) :
    ∃ i, 1 ≤ i ∧ i < (comps n).length ∧
      d = joinComps ((comps n).take i) ∧ i = (comps d).length ∧
      ¬ old.get? i = some d := by
  obtain ⟨i, h1, hg, ho⟩ := (stepDirs_mem old (ancChain n) d).mp h
  have hlt : i < (ancChain n).length := get?_some_lt _ i d hg
  rw [ancChain_length] at hlt
  rw [ancChain_get? n i hlt] at hg
  have hd : joinComps ((comps n).take i) = d := Option.some.inj hg
  obtain ⟨hcj, hlen⟩ := anc_index n i h1 hlt
  refine ⟨i, h1, hlt, hd.symm, ?_, ho⟩
  rw [← hd]
  exact hlen.symm

theorem nodup_filterMap_of_injOn {α β : Type} (f : α → Option β) :
    ∀ (l : List α),
      (∀ i ∈ l, ∀ j ∈ l, ∀ b, f i = some b → f j = some b → i = j) →
      l.Nodup → (l.filterMap f).Nodup := by
  intro l
  induction l with
  | nil => intro _ _; exact List.nodup_nil
  | cons a t ih =>
    intro hinj hnd
    rw [List.filterMap_cons]
    rw [List.nodup_cons] at hnd
    cases hf : f a with
    | none =>
      exact ih (fun i hi j hj b hb1 hb2 =>
        hinj i (List.mem_cons_of_mem a hi) j (List.mem_cons_of_mem a hj)
          b hb1 hb2) hnd.2
    | some b =>
      rw [List.nodup_cons]
      constructor
      · intro hmem
        obtain ⟨j, hj, hjb⟩ := List.mem_filterMap.mp hmem
        have haj : a = j := hinj a (List.mem_cons_self _ _) j
          (List.mem_cons_of_mem a hj) b hf hjb
        rw [haj] at hnd
        exact hnd.1 hj
      · exact ih (fun i hi j hj b' hb1 hb2 =>
          hinj i (List.mem_cons_of_mem a hi) j (List.mem_cons_of_mem a hj)
            b' hb1 hb2) hnd.2

theorem stepDirs_anc_nodup (old : List String) (n : String) :
    List.Nodup (stepDirs old (ancChain n)) := by
  unfold stepDirs
  apply nodup_filterMap_of_injOn
  · intro i hi j hj d hfi hfj
    rw [List.mem_range'_1] at hi hj
    obtain ⟨hgi, -⟩ := stepDirs_fun_eq old (ancChain n) i d hfi
    obtain ⟨hgj, -⟩ := stepDirs_fun_eq old (ancChain n) j d hfj
    have hlti : i < (ancChain n).length := get?_some_lt _ i d hgi
    have hltj : j < (ancChain n).length := get?_some_lt _ j d hgj
    rw [ancChain_length] at hlti hltj
    rw [ancChain_get? n i hlti] at hgi
    rw [ancChain_get? n j hltj] at hgj
    have hdi : joinComps ((comps n).take i) = d := Option.some.inj hgi
    have hdj : joinComps ((comps n).take j) = d := Option.some.inj hgj
    obtain ⟨-, hleni⟩ := anc_index n i hi.1 hlti
    obtain ⟨-, hlenj⟩ := anc_index n j hj.1 hltj
    rw [hdi] at hleni
    rw [hdj] at hlenj
    rw [← hleni, ← hlenj]
  · exact List.nodup_range' _ _

theorem emit_file_mem (meta : FsPath → Option Nat) :
    ∀ (m : List (String × FsPath)) (last : Option String) (n : String)
      (l : FsPath) (mode : Nat),
      ZEntry.file n l mode ∈ (emitEntries meta m last).1 → (n, l) ∈ m := by
  intro m
  induction m with
  | nil => intro last n l mode h; exact absurd h (List.not_mem_nil _)
  | cons kv rest ih =>
    intro last n l mode h
    obtain ⟨n0, l0⟩ := kv
    cases hm : meta l0 with
    | none =>
      rw [emitEntries_cons_none meta n0 l0 rest last hm] at h
      have h2 : ZEntry.file n l mode ∈
          (stepDirs (oldChain last) (ancChain n0)).map ZEntry.dir := h
      obtain ⟨d0, -, hdd⟩ := List.mem_map.mp h2
      exact ZEntry.noConfusion hdd
    | some mode0 =>
      rw [emitEntries_cons_some meta n0 l0 rest last mode0 hm] at h
      have h2 : ZEntry.file n l mode ∈
          (stepDirs (oldChain last) (ancChain n0)).map ZEntry.dir ++
            ZEntry.file n0 l0 mode0 :: (emitEntries meta rest (some n0)).1 := h
      rcases List.mem_append.mp h2 with hh | hh
      · obtain ⟨d0, -, hdd⟩ := List.mem_map.mp hh
        exact ZEntry.noConfusion hdd
      · rcases List.mem_cons.mp hh with heq | hh
        · injection heq with e1 e2 e3
          rw [e1, e2]
          exact List.mem_cons_self _ _
        · exact List.mem_cons_of_mem _ (ih (some n0) n l mode hh)

theorem emit_dirs_char (meta : FsPath → Option Nat) :
    ∀ (m : List (String × FsPath)) (last : Option String),
      List.Pairwise (fun a b => strLt a.1 b.1) m →
      (∀ p, last = some p → ∀ kv ∈ m, strLt p kv.1) →
      ∀ d, ZEntry.dir d ∈ (emitEntries meta m last).1 →
        ∃ n l, (n, l) ∈ m ∧ ∃ i, 1 ≤ i ∧ i < (comps n).length ∧
          d = joinComps ((comps n).take i) ∧ i = (comps d).length ∧
          ¬ (oldChain last).get? i = some d := by
  intro m
  induction m with
  | nil =>
    intro last _ _ d h
    exact absurd h (List.not_mem_nil _)
  | cons kv rest ih =>
    intro last hsort hbelow d h
    obtain ⟨n0, l0⟩ := kv
    rw [List.pairwise_cons] at hsort
    cases hm : meta l0 with
    | none =>
      rw [emitEntries_cons_none meta n0 l0 rest last hm] at h
      have h2 : ZEntry.dir d ∈
          (stepDirs (oldChain last) (ancChain n0)).map ZEntry.dir := h
      obtain ⟨d0, hd0, hdd⟩ := List.mem_map.mp h2
      have hdde : d0 = d := by injection hdd
      rw [hdde] at hd0
      obtain ⟨i, h1, hlt, hde, hil, ho⟩ := stepDirs_anc (oldChain last) n0 d hd0
      exact ⟨n0, l0, List.mem_cons_self _ _, i, h1, hlt, hde, hil, ho⟩
    | some mode =>
      rw [emitEntries_cons_some meta n0 l0 rest last mode hm] at h
      have h2 : ZEntry.dir d ∈
          (stepDirs (oldChain last) (ancChain n0)).map ZEntry.dir ++
            ZEntry.file n0 l0 mode :: (emitEntries meta rest (some n0)).1 := h
      rcases List.mem_append.mp h2 with hh | hh
      · obtain ⟨d0, hd0, hdd⟩ := List.mem_map.mp hh
        have hdde : d0 = d := by injection hdd
        rw [hdde] at hd0
        obtain ⟨i, h1, hlt, hde, hil, ho⟩ := stepDirs_anc (oldChain last) n0 d hd0
        exact ⟨n0, l0, List.mem_cons_self _ _, i, h1, hlt, hde, hil, ho⟩
      · rcases List.mem_cons.mp hh with heq | hh
        · exact ZEntry.noConfusion heq
        · obtain ⟨n', l', hmem, i, h1, hlt, hde, hil, ho⟩ :=
            ih (some n0) hsort.2
              (fun p hp kv hkv => by
                cases Option.some.inj hp
                exact hsort.1 kv hkv)
              d hh
          refine ⟨n', l', List.mem_cons_of_mem _ hmem, i, h1, hlt, hde, hil, ?_⟩
          cases last with
          | none =>
            intro hcon
            exact Option.noConfusion hcon
          | some p =>
            intro hcon
            have hconv : (ancChain p).get? i = some d := hcon
            have hplt : i < (comps p).length := by
              have hx := get?_some_lt _ i d hconv
              rw [ancChain_length] at hx
              exact hx
            rw [ancChain_get? p i hplt] at hconv
            have hdp : joinComps ((comps p).take i) = d := Option.some.inj hconv
            have hpfp : d.data ++ ['/'] <+: p.data := by
              have hx := anc_prefix p i h1 hplt
              rw [hdp] at hx
              exact hx
            have hpfn : d.data ++ ['/'] <+: n'.data := by
              have hx := anc_prefix n' i h1 hlt
              rw [← hde] at hx
              exact hx
            have hpn0 : strLt p n0 :=
              hbelow p rfl (n0, l0) (List.mem_cons_self _ _)
            have hn0n : strLt n0 n' := hsort.1 (n', l') hmem
            have hmid : d.data ++ ['/'] <+: n0.data :=
              lexLt_interval (d.data ++ ['/']) p.data n0.data n'.data
                (Or.inl hpn0) (Or.inl hn0n) hpfp hpfn
            obtain ⟨htake, hlen0⟩ := prefix_slash_anc d n0 hmid
            rw [← hil] at htake hlen0
            apply ho
            show (ancChain n0).get? i = some d
            rw [ancChain_get? n0 i hlen0, htake, joinComps_comps]

theorem emit_dirs_nodup (meta : FsPath → Option Nat) :
    ∀ (m : List (String × FsPath)) (last : Option String),
      List.Pairwise (fun a b => strLt a.1 b.1) m →
      (∀ p, last = some p → ∀ kv ∈ m, strLt p kv.1) →
      List.Nodup ((emitEntries meta m last).1.filterMap dirNameOf) := by
  intro m
  induction m with
  | nil => intro last _ _; exact List.nodup_nil
  | cons kv rest ih =>
    intro last hsort hbelow
    obtain ⟨n0, l0⟩ := kv
    rw [List.pairwise_cons] at hsort
    cases hm : meta l0 with
    | none =>
      rw [emitEntries_cons_none meta n0 l0 rest last hm]
      show List.Nodup
        (((stepDirs (oldChain last) (ancChain n0)).map ZEntry.dir).filterMap
          dirNameOf)
      rw [dirNames_map_dir]
      exact stepDirs_anc_nodup _ n0
    | some mode =>
      rw [emitEntries_cons_some meta n0 l0 rest last mode hm]
      show List.Nodup
        ((((stepDirs (oldChain last) (ancChain n0)).map ZEntry.dir) ++
          ZEntry.file n0 l0 mode ::
            (emitEntries meta rest (some n0)).1).filterMap dirNameOf)
      rw [List.filterMap_append, dirNames_map_dir, filterMap_dir_file_cons]
      rw [List.nodup_append]
      refine ⟨stepDirs_anc_nodup _ n0,
        ih (some n0) hsort.2 (fun p hp kv hkv => by
          cases Option.some.inj hp
          exact hsort.1 kv hkv), ?_⟩
      intro d hd1 hd2
      have hd2' : ZEntry.dir d ∈ (emitEntries meta rest (some n0)).1 :=
        (mem_dirNames _ d).mp hd2
      obtain ⟨n', l', hmem, i, h1, hlt, hde, hil, ho⟩ :=
        emit_dirs_char meta rest (some n0) hsort.2
          (fun p hp kv hkv => by
            cases Option.some.inj hp
            exact hsort.1 kv hkv) d hd2'
      obtain ⟨i0, h01, hlt0, hd0, hil0, ho0⟩ := stepDirs_anc (oldChain last) n0 d hd1
      have hii : i0 = i := by rw [hil0, ← hil]
      apply ho
      show (ancChain n0).get? i = some d
      rw [← hii]
      rw [ancChain_get? n0 i0 hlt0, ← hd0]

theorem emit_cov (meta : FsPath → Option Nat) :
    ∀ (m : List (String × FsPath)) (last : Option String),
      (emitEntries meta m last).2 = none →
      ∀ n l, (n, l) ∈ m → ∀ i, 1 ≤ i → i < (comps n).length →
        ZEntry.dir (joinComps ((comps n).take i)) ∈
          (emitEntries meta m last).1 ∨
        ∃ p, last = some p ∧
          (ancChain p).get? i = some (joinComps ((comps n).take i)) := by
  intro m
  induction m with
  | nil => intro last _ n l hmem; exact absurd hmem (List.not_mem_nil _)
  | cons kv rest ih =>
    intro last h2none n l hmem i h1 hlen
    obtain ⟨n0, l0⟩ := kv
    cases hm : meta l0 with
    | none =>
      rw [emitEntries_cons_none meta n0 l0 rest last hm] at h2none
      exact Option.noConfusion h2none
    | some mode =>
      rw [emitEntries_cons_some meta n0 l0 rest last mode hm] at h2none ⊢
      have h2t : (emitEntries meta rest (some n0)).2 = none := h2none
      rcases List.mem_cons.mp hmem with heq | hmem
      · injection heq with e1 e2
        subst e1
        by_cases ho : (oldChain last).get? i = some (joinComps ((comps n).take i))
        · cases last with
          | none => exact Option.noConfusion ho
          | some p => exact Or.inr ⟨p, rfl, ho⟩
        · refine Or.inl (List.mem_append_left _ ?_)
          refine List.mem_map.mpr ⟨joinComps ((comps n).take i), ?_, rfl⟩
          rw [stepDirs_mem]
          exact ⟨i, h1, ancChain_get? n i hlen, ho⟩
      · rcases ih (some n0) h2t n l hmem i h1 hlen with hin | ⟨p, hp, hanc⟩
        · exact Or.inl (List.mem_append_right _ (List.mem_cons_of_mem _ hin))
        · cases Option.some.inj hp
          by_cases ho : (oldChain last).get? i =
              some (joinComps ((comps n).take i))
          · cases last with
            | none => exact Option.noConfusion ho
            | some q => exact Or.inr ⟨q, rfl, ho⟩
          · refine Or.inl (List.mem_append_left _ ?_)
            refine List.mem_map.mpr ⟨joinComps ((comps n).take i), ?_, rfl⟩
            rw [stepDirs_mem]
            exact ⟨i, h1, hanc, ho⟩

theorem emit_files_eq (meta : FsPath → Option Nat) :
    ∀ (m : List (String × FsPath)) (last : Option String),
      (emitEntries meta m last).2 = none →
      (emitEntries meta m last).1.filterMap fileNameOf = m.map Prod.fst := by
  intro m
  induction m with
  | nil => intro last _; rfl
  | cons kv rest ih =>
    intro last h2
    obtain ⟨n0, l0⟩ := kv
    cases hm : meta l0 with
    | none =>
      rw [emitEntries_cons_none meta n0 l0 rest last hm] at h2
      exact Option.noConfusion h2
    | some mode =>
      rw [emitEntries_cons_some meta n0 l0 rest last mode hm] at h2 ⊢
      have h2t : (emitEntries meta rest (some n0)).2 = none := h2
      show (((stepDirs (oldChain last) (ancChain n0)).map ZEntry.dir) ++
        ZEntry.file n0 l0 mode ::
          (emitEntries meta rest (some n0)).1).filterMap fileNameOf =
        n0 :: rest.map Prod.fst
      rw [List.filterMap_append, fileNames_map_dir, filterMap_file_file_cons]
      rw [ih (some n0) h2t]
      rfl

theorem insertFiles_ok_parts (meta : FsPath → Option Nat)
    (files : List FileEntry) (tr : List ZEntry)
    (h : insertFiles meta files = .ok tr) :
    ∃ m, buildEntryMap [] files = .ok m ∧
      emitEntries meta m none = (tr, none) := by
  unfold insertFiles at h
  cases htr : insertFilesTrace meta files with
  | mk a b =>
    rw [htr] at h
    cases b with
    | none =>
      have h2 : Except.ok (ε := ZErr) a = .ok tr := h
      have ha : a = tr := Except.ok.inj h2
      subst ha
      unfold insertFilesTrace at htr
      cases hb : buildEntryMap [] files with
      | error e =>
        rw [hb] at htr
        injection htr with hl hr
        exact Option.noConfusion hr
      | ok m =>
        rw [hb] at htr
        exact ⟨m, rfl, htr⟩
    | some e =>
      exact Except.noConfusion h

/-- Claim C5, amended: on every conflict-free entry list with well-formed
archive names that `insert_files` accepts, a directory entry is emitted
for every non-empty proper ancestor of every written file, each interior
directory is emitted exactly once, the FILE entries appear in strictly
increasing lexicographic name order, and no entry is emitted for the
archive root — but the dir and file entries are NOT globally sorted
together, because missing ancestor directories are emitted only when the
first file below them is reached. -/
theorem c5_writer_emission_amended :
    ∀ (meta : FsPath → Option Nat) (files : List FileEntry)
      (tr : List ZEntry),
      (∀ f ∈ files, goodName f.name) →
      insertFiles meta files = .ok tr →
      (∀ n l mode, ZEntry.file n l mode ∈ tr →
        ∀ i, 1 ≤ i → i < (comps n).length →
          ZEntry.dir (joinComps ((comps n).take i)) ∈ tr) ∧
      List.Nodup (tr.filterMap dirNameOf) ∧
      List.Pairwise strLt (tr.filterMap fileNameOf) ∧
      ZEntry.dir "" ∉ tr := by
  intro meta files tr hgood hok
  obtain ⟨m, hb, he⟩ := insertFiles_ok_parts meta files tr hok
  have hsort : List.Pairwise (fun a b => strLt a.1 b.1) m :=
    bem_sorted files [] m List.Pairwise.nil hb
  have htr1 : (emitEntries meta m none).1 = tr := by rw [he]
  have htr2 : (emitEntries meta m none).2 = none := by rw [he]
  have hbelow : ∀ p, (none : Option String) = some p →
      ∀ kv ∈ m, strLt p kv.1 :=
    fun p hp => Option.noConfusion hp
  refine ⟨?_, ?_, ?_, ?_⟩
  · intro n l mode hf i h1 hlen
    have hf2 : ZEntry.file n l mode ∈ (emitEntries meta m none).1 := by
      rw [htr1]; exact hf
    have hmem := emit_file_mem meta m none n l mode hf2
    rcases emit_cov meta m none htr2 n l hmem i h1 hlen with hin | ⟨p, hp, -⟩
    · rw [← htr1]; exact hin
    · exact Option.noConfusion hp
  · rw [← htr1]
    exact emit_dirs_nodup meta m none hsort hbelow
  · rw [← htr1]
    rw [emit_files_eq meta m none htr2]
    exact List.pairwise_map.mpr hsort
  · intro hin
    have hin2 : ZEntry.dir "" ∈ (emitEntries meta m none).1 := by
      rw [htr1]; exact hin
    obtain ⟨n, l, hmem, i, h1, hlt, hde, -, -⟩ :=
      emit_dirs_char meta m none hsort hbelow "" hin2
    rcases bem_ok_entries files [] m hb (n, l) hmem with hnil | ⟨f, hf, hfn, -⟩
    · exact absurd hnil (List.not_mem_nil _)
    · have hfn2 : f.name = n := hfn
      have hgn : goodName n := by rw [← hfn2]; exact hgood f hf
      have htakene := take_ne_nil (comps n) i h1 (comps_ne_nil n)
      cases htk : (comps n).take i with
      | nil => exact htakene htk
      | cons c0 t =>
        have hc0 : c0 ∈ comps n := List.mem_of_mem_take
          (by rw [htk]; exact List.mem_cons_self _ _)
        have hgc : goodComp c0 := hgn c0 hc0
        have hdata : ([] : List Char) = joinChar '/' (c0 :: t) := by
          have hx := congrArg String.data hde
          rw [htk] at hx
          exact hx
        cases t with
        | nil =>
          have hc0e : c0 = [] := by
            rw [show joinChar '/' [c0] = c0 from rfl] at hdata
            exact hdata.symm
          exact hgc.1 hc0e
        | cons c1 t2 =>
          rw [show joinChar '/' (c0 :: c1 :: t2) =
            c0 ++ '/' :: joinChar '/' (c1 :: t2) from rfl] at hdata
          exact List.noConfusion (List.append_eq_nil.mp hdata.symm).2

/-- Counterexample for C5: the writer emits `a.z` before the directory
`a` although `a` sorts before `a.z`, so the emission is not globally in
lexicographic order. -/
theorem c5_lex_order_counterexample :
    insertFiles (fun _ => some 420) [⟨["p"], "a.z"⟩, ⟨["q"], "a/b"⟩] =
      .ok [ZEntry.file "a.z" ["p"] 420, ZEntry.dir "a",
        ZEntry.file "a/b" ["q"] 420] ∧
    ¬ List.Pairwise strLt
      ([ZEntry.file "a.z" ["p"] 420, ZEntry.dir "a",
        ZEntry.file "a/b" ["q"] 420].map znameOf) :=
  ⟨by decide, by decide⟩

/-- Witness for the amended C5 at a one-file bundle. -/
theorem c5_writer_emission_amended_witness :
    (∀ n l mode,
      ZEntry.file n l mode ∈
        [ZEntry.dir "a", ZEntry.file "a/b" ["p"] 420] →
      ∀ i, 1 ≤ i → i < (comps n).length →
        ZEntry.dir (joinComps ((comps n).take i)) ∈
          [ZEntry.dir "a", ZEntry.file "a/b" ["p"] 420]) ∧
    List.Nodup
      ([ZEntry.dir "a", ZEntry.file "a/b" ["p"] 420].filterMap dirNameOf) ∧
    List.Pairwise strLt
      ([ZEntry.dir "a", ZEntry.file "a/b" ["p"] 420].filterMap fileNameOf) ∧
    ZEntry.dir "" ∉ [ZEntry.dir "a", ZEntry.file "a/b" ["p"] 420] :=
  c5_writer_emission_amended (fun _ => some 420) [⟨["p"], "a/b"⟩]
    [ZEntry.dir "a", ZEntry.file "a/b" ["p"] 420]
    (by decide) (by decide)

end BundleGen
